import Mathlib

/-!
# Verification of `src/igzip/write.rs` (isal-rs streaming write adapters)

Shallow embedding of the streaming `Encoder`/`Decoder` write adapters of
`src/src/igzip/write.rs`, together with executable models of the external
collaborators they drive.  The adapter code itself (struct fields, `write`,
`flush`, `write_from_out_buf`, the per-codec header branches, the zlib
checksum section) is translated line by line from the source.  The block
codec engine (ISA-L's `isal_deflate` / `isal_inflate`), the `igzip` module
helpers (`ZStream`, `InflateState`, `read_gzip_header`, `read_zlib_header`,
`isal_adler32`, `BUF_SIZE`, `Codec`) and the downstream sink are not part of
`src/`; they are modelled from the spec, as marked on each definition.

Conventions:
* bytes are `Nat`s (the adapters copy them opaquely, so no `< 256` bound is
  imposed except where a claim needs one);
* the engine's raw-pointer input window `next_in`/`avail_in` becomes an
  explicit byte list plus a cursor and a count;
* the staging `Vec<u8>` plus `dsts`/`dste` cursors becomes a byte list that
  holds exactly the bytes the code would have written through the moving
  output windows (`resize` + window writes + `truncate` = append);
* loops become fuel-indexed structural recursions, with the fuel chosen and
  proved generous enough for every run that terminates in the source.
-/

namespace IsalRs

/-- `Codec` format tag of the `igzip` module (fixed at construction).
Modelled from the spec: FormatTag, one of raw / additive-checksum-wrapped /
self-checksummed-wrapped. -/
inductive Codec
  | Deflate
  | Zlib
  | Gzip
deriving DecidableEq, Repr

/-- Compression level preset. Modelled from the spec: the engine is a trusted
primitive, so the level does not influence the model's behaviour. -/
inductive CompressionLevel
  | Zero
  | One
  | Three
deriving DecidableEq, Repr

/-- Engine flush mode flag. Modelled from the spec: flush-mode "none" vs
"full flush" (forces stream termination and a complete trailer). -/
inductive FlushFlags
  | NoFlush
  | FullFlush
deriving DecidableEq, Repr

/-- Staging-buffer growth increment. Modelled from the spec: the adapters grow
the staging buffer by one fixed increment per engine cycle. -/
def BUF_SIZE : Nat := 16384

/-- Downstream sink: "accept this byte range fully or fail" plus "flush
internal buffering".  Modelled from the spec: the repo tests drive the
adapters into `Vec<u8>` sinks, which never fail, so the model collects the
bytes and counts the forwarded flushes. -/
structure Sink where
  data : List Nat
  flushes : Nat
deriving DecidableEq, Repr

def Sink.write_all (s : Sink) (bytes : List Nat) : Sink :=
  { s with data := s.data ++ bytes }

def Sink.flush (s : Sink) : Sink :=
  { s with flushes := s.flushes + 1 }

def emptySink : Sink := { data := [], flushes := 0 }

/-! ## Checksum and wire-format primitives -/

def MOD_ADLER : Nat := 65521

/-- Modelled from the spec: `isal_adler32` — the additive checksum folded over
decoded bytes.  The 32-bit accumulator packs the two 16-bit halves `a` (low)
and `b` (high); the initial value used by the adapters is `1`. -/
def adlerFold (init : Nat) (bs : List Nat) : Nat :=
  let p := bs.foldl
    (fun p x =>
      let a := (p.1 + x) % MOD_ADLER
      (a, (p.2 + a) % MOD_ADLER))
    (init % 65536, init / 65536)
  p.2 * 65536 + p.1

/-- Big-endian 4-byte encoding of a 32-bit value (zlib trailer layout). -/
def be32Bytes (n : Nat) : List Nat :=
  [n / 16777216 % 256, n / 65536 % 256, n / 256 % 256, n % 256]

/-- Big-endian interpretation of a 4-byte list (`u32::from_be_bytes`). -/
def be32 : List Nat → Nat
  | [a, b, c, d] => ((a * 256 + b) * 256 + c) * 256 + d
  | _ => 0

/-- Little-endian 4-byte encoding (gzip trailer words). -/
def le32Bytes (n : Nat) : List Nat :=
  [n % 256, n / 256 % 256, n / 65536 % 256, n / 16777216 % 256]

/-- Fixed 2-byte zlib container header emitted by the engine model
(CM = 8, check bits valid: `(120 * 256 + 156) % 31 = 0`). -/
def zlibHdr : List Nat := [120, 156]

/-- Fixed gzip member header emitted and expected by the engine model.
Modelled from the spec: self-checksummed member header, engine-owned. -/
def gzipHdr : List Nat := [31, 139, 8, 0, 0, 0, 0, 0, 0, 255]

def hdrBytes : Codec → List Nat
  | .Deflate => []
  | .Zlib => zlibHdr
  | .Gzip => gzipHdr

/-- Gzip trailer: checksum word then length word.  Modelled from the spec:
member trailer with engine-owned validation (the adapters never inspect it,
so the model reuses the additive checksum for the first word). -/
def gzipTrailerBytes (chk len : Nat) : List Nat :=
  le32Bytes chk ++ le32Bytes (len % 4294967296)

/-- Per-format stream trailer.  Modelled from the spec: raw framing has none,
the additive-checksum format carries a 4-byte big-endian additive-checksum
trailer, the self-checksummed format an engine-owned 8-byte trailer. -/
def trailerBytes (c : Codec) (chk len : Nat) : List Nat :=
  match c with
  | .Deflate => []
  | .Zlib => be32Bytes chk
  | .Gzip => gzipTrailerBytes chk len

/-- One stored block of the engine model's payload format: a 3-byte header
(final flag, 16-bit little-endian length) followed by the literal bytes. -/
def blockBytes (chunk : List Nat) : List Nat :=
  [0, chunk.length % 256, chunk.length / 256] ++ chunk

def blocksBytes (CH : List (List Nat)) : List Nat :=
  (CH.map blockBytes).flatten

/-- A complete member payload: stored blocks followed by the final empty
block `[1, 0, 0]`. -/
def payloadBytes (CH : List (List Nat)) : List Nat :=
  blocksBytes CH ++ [1, 0, 0]

/-- A complete single member in format `c` whose decoded content is
`CH.flatten`. -/
def memberBytes (c : Codec) (CH : List (List Nat)) : List Nat :=
  hdrBytes c ++ payloadBytes CH ++
    trailerBytes c (adlerFold 1 CH.flatten) CH.flatten.length

/-! ## The deflate (compression) engine model

Modelled from the spec: the Block Codec Engine's step-encode primitive.  It
accepts an input window and an output capacity, reports the bytes consumed
and produced, carries `total_in`/`total_out`, a flush-mode flag, an
end-of-stream flag and the format tag, and exposes a structural reset.  Each
step emits the member header (once) and one stored block of as much of the
window as fits the output capacity; a full-flush step with no input emits
the final empty block and the per-format trailer and parks the internal
state at `ZSTATE_END`. -/

structure ZStream where
  total_in : Nat
  total_out : Nat
  flush : FlushFlags
  end_of_stream : Bool
  gzip_flag : Codec
  hdr_written : Bool
  adler : Nat
  zstate_end : Bool
deriving DecidableEq, Repr

def ZStream.new (_level : CompressionLevel) : ZStream :=
  { total_in := 0, total_out := 0, flush := .NoFlush, end_of_stream := false,
    gzip_flag := .Gzip, hdr_written := false, adler := 1, zstate_end := false }

/-- The member header still owed by the engine: emitted on the next cycle
if not already written. -/
def ZStream.hdrPref (s : ZStream) : List Nat :=
  if s.hdr_written then [] else hdrBytes s.gzip_flag

/-- Input capacity of one encode cycle: the output window minus the owed
header and the 3-byte stored-block header. -/
def encCap (s : ZStream) (B : Nat) : Nat := B - (s.hdrPref.length + 3)

/-- The slice of `input` consumed by one encode cycle. -/
def encTaken (s : ZStream) (B : Nat) (input : List Nat) : List Nat :=
  input.take (min input.length (encCap s B))

/-- The bytes produced by one encode cycle on nonempty input: the owed
header and one stored block holding the consumed slice. -/
def encOut (s : ZStream) (B : Nat) (input : List Nat) : List Nat :=
  s.hdrPref ++
    [0, min input.length (encCap s B) % 256,
        min input.length (encCap s B) / 256] ++
    encTaken s B input

/-- The bytes produced by the stream-terminating full-flush cycle: any owed
header, the final empty block, and the per-format trailer. -/
def flushOut (s : ZStream) : List Nat :=
  s.hdrPref ++ [1, 0, 0] ++ trailerBytes s.gzip_flag s.adler s.total_in

/-- One step-encode cycle: `(state, input window, avail_out) ↦
(state, unconsumed input, produced bytes)`. -/
def ZStream.deflate (s : ZStream) (input : List Nat) (avail_out : Nat) :
    ZStream × List Nat × List Nat :=
  if input.isEmpty then
    if s.end_of_stream ∧ s.flush = .FullFlush ∧ ¬ s.zstate_end then
      ({ s with hdr_written := true, zstate_end := true,
                total_out := s.total_out + (flushOut s).length }, [],
       flushOut s)
    else (s, [], [])
  else
    ({ s with hdr_written := true,
              adler := adlerFold s.adler (encTaken s avail_out input),
              total_in := s.total_in + min input.length (encCap s avail_out),
              total_out := s.total_out + (encOut s avail_out input).length },
     input.drop (min input.length (encCap s avail_out)),
     encOut s avail_out input)

/-- Modelled from the spec: `isal_deflate_reset`, the structural reset
primitive (clears the stream state without reallocation; the adapter
re-arms the flush flags itself afterwards). -/
def isal_deflate_reset (s : ZStream) : ZStream :=
  { s with total_in := 0, total_out := 0, hdr_written := false,
           adler := 1, zstate_end := false }

/-! ## The streaming Encoder (from `src/igzip/write.rs` lines 34–157) -/

structure Encoder where
  inner : Sink
  stream : ZStream
  out_buf : List Nat
  dsts : Nat
  dste : Nat
  total_in : Nat
  total_out : Nat
  codec : Codec
deriving DecidableEq, Repr

/-- `Encoder::new` (lines 47–66). -/
def Encoder.new (writer : Sink) (level : CompressionLevel) (codec : Codec) :
    Encoder :=
  let zstream :=
    { ZStream.new level with
        end_of_stream := false, flush := .NoFlush, gzip_flag := codec }
  { inner := writer, stream := zstream, out_buf := [], dste := 0, dsts := 0,
    total_in := 0, total_out := 0, codec := codec }

/-- `Encoder::write_from_out_buf` (lines 79–87): hand `out_buf[dsts..dste]`
to the sink, truncate the staging buffer and reset both cursors. -/
def Encoder.write_from_out_buf (e : Encoder) : Encoder × Nat :=
  let count := e.dste - e.dsts
  let inner := e.inner.write_all ((e.out_buf.take e.dste).drop e.dsts)
  ({ e with inner := inner, out_buf := [], dsts := 0, dste := 0 }, count)

/-- `Encoder::total_out` accessor (lines 96–98). -/
def Encoder.total_out_acc (e : Encoder) : Nat :=
  e.stream.total_out + e.total_out

/-- `Encoder::total_in` accessor (lines 101–103). -/
def Encoder.total_in_acc (e : Encoder) : Nat :=
  e.stream.total_in + e.total_in

/-- The `while self.stream.stream.avail_in > 0` loop of `Encoder::write`
(lines 114–124): grow staging by `BUF_SIZE`, point the output window past
`dste`, run one encode cycle, advance `dste` by the bytes produced.  The
fuel only bounds the recursion; `input.length` is always enough because each
cycle consumes at least one byte. -/
def Encoder.writeLoop : Nat → Encoder → List Nat → Encoder
  | 0, e, _ => e
  | fuel + 1, e, input =>
    if input.isEmpty then e
    else
      let r := e.stream.deflate input BUF_SIZE
      Encoder.writeLoop fuel
        { e with stream := r.1,
                 out_buf := e.out_buf.take e.dste ++ r.2.2,
                 dste := e.dste + r.2.2.length }
        r.2.1

/-- `Encoder::write` (lines 107–129). -/
def Encoder.write (e : Encoder) (buf : List Nat) : Encoder × Nat :=
  if buf.isEmpty then (e, 0)
  else
    let e1 := Encoder.writeLoop buf.length e buf
    let e2 := e1.write_from_out_buf
    (e2.1, buf.length)

/-- The `while state != ZSTATE_END` loop of `Encoder::flush` (lines
134–141).  With the flush flags armed a single cycle finishes the stream,
so fuel 2 always suffices. -/
def Encoder.flushLoop : Nat → Encoder → Encoder
  | 0, e => e
  | fuel + 1, e =>
    if e.stream.zstate_end then e
    else
      let r := e.stream.deflate [] BUF_SIZE
      Encoder.flushLoop fuel
        { e with stream := r.1,
                 out_buf := e.out_buf.take e.dste ++ r.2.2,
                 dste := e.dste + r.2.2.length }

/-- `Encoder::flush` (lines 130–156): arm end-of-stream and full-flush,
cycle the engine to `ZSTATE_END`, hand staged bytes to the sink, flush the
sink, fold the finished stream's totals into the persisted counters,
structurally reset the engine and re-arm the flags. -/
def Encoder.flush (e : Encoder) : Encoder :=
  let e0 :=
    { e with stream :=
        { e.stream with end_of_stream := true, flush := .FullFlush } }
  let e1 := Encoder.flushLoop 2 e0
  let e2 := (e1.write_from_out_buf).1
  let e3 := { e2 with inner := e2.inner.flush }
  let st := e3.stream
  let e4 :=
    { e3 with total_in := e3.total_in + st.total_in,
              total_out := e3.total_out + st.total_out,
              stream := isal_deflate_reset st }
  { e4 with stream :=
      { e4.stream with flush := .NoFlush, end_of_stream := false,
                       gzip_flag := e4.codec } }

/-! ## The inflate (decompression) engine model

Modelled from the spec: the Block Codec Engine's step-decode primitive.  It
works through the payload format one byte at a time: it collects the 3-byte
stored-block header, streams the block's literal bytes to the output window,
and at the final block's end either consumes and validates the engine-owned
gzip trailer (self-checksummed mode) or — in raw mode, mimicking the real
engine's eager input lookahead — blindly swallows up to four pending bytes
(the additive-checksum trailer the adapter verifies itself) before parking
at the finished state. -/

/-- Engine block-boundary indicator (`isal_block_state`).  `NEW_HDR`: at a
member boundary, header unread; `HDR`: member header consumed; `TYPE0`:
inside a stored block (output window filled); `CODED`: input window
exhausted mid-member; `FINISH`: member complete. -/
inductive BlockState
  | NEW_HDR
  | HDR
  | TYPE0
  | CODED
  | FINISH
deriving DecidableEq, Repr

/-- Engine-internal decode phase. -/
inductive IPhase
  | newHdr
  | blkHdr (acc : List Nat)
  | blkData (remaining : Nat) (final : Bool)
  | slurp (k : Nat)
  | gzTrailer (acc : List Nat)
  | finished
deriving DecidableEq, Repr

/-- Fresh member-start phase behaves like an empty block-header collector. -/
def normPhase : IPhase → IPhase
  | .newHdr => .blkHdr []
  | p => p

/-- Phases the engine reports as the `FINISH` block state. -/
def IPhase.isFin : IPhase → Bool
  | .finished => true
  | .slurp _ => true
  | _ => false

def IPhase.isData : IPhase → Bool
  | .blkData _ _ => true
  | _ => false

/-- The engine-internal decode core: phase plus the engine-owned checksum
accumulator and output byte count (used to validate gzip trailers). -/
structure EngCore where
  phase : IPhase
  adlerE : Nat
  countE : Nat
deriving DecidableEq, Repr

def freshCore : EngCore := { phase := .newHdr, adlerE := 1, countE := 0 }

/-- Decoder error classes (spec section 7), as surfaced through
`io::Error` by the adapter. -/
inductive DecErr
  | MalformedHeader
  | IncorrectChecksum
  | EngineError
deriving DecidableEq, Repr

/-- Numeric `crc_flag` values of the engine: `0` = raw deflate (no
engine checksum), `1` = gzip (engine-validated trailer), `3` = zlib. -/
def crcFlag : Codec → Nat
  | .Deflate => 0
  | .Gzip => 1
  | .Zlib => 3

/-- Where the engine goes once the final block of a member is consumed:
gzip mode collects the 8-byte engine-owned trailer; otherwise the eager
input buffer swallows up to 4 pending bytes. -/
def phaseAfterBlockSeq (crc : Nat) : IPhase :=
  if crc = 1 then .gzTrailer [] else .slurp 4

/-- Consume one input byte, producing at most one output byte. -/
def consumeByte (crc : Nat) (e0 : EngCore) (b : Nat) :
    Except DecErr (EngCore × List Nat) :=
  let e := { e0 with phase := normPhase e0.phase }
  match e.phase with
  | .blkHdr acc =>
    let acc' := acc ++ [b]
    match acc' with
    | [f, lo, hi] =>
      let len := lo + 256 * hi
      if len = 0 then
        if f ≠ 0 then .ok ({ e with phase := phaseAfterBlockSeq crc }, [])
        else .ok ({ e with phase := .blkHdr [] }, [])
      else .ok ({ e with phase := .blkData len (f ≠ 0) }, [])
    | _ => .ok ({ e with phase := .blkHdr acc' }, [])
  | .blkData r fin =>
    let e' := { e with adlerE := adlerFold e.adlerE [b], countE := e.countE + 1 }
    if r ≤ 1 then
      if fin then .ok ({ e' with phase := phaseAfterBlockSeq crc }, [b])
      else .ok ({ e' with phase := .blkHdr [] }, [b])
    else .ok ({ e' with phase := .blkData (r - 1) fin }, [b])
  | .slurp k =>
    if k ≤ 1 then .ok ({ e with phase := .finished }, [])
    else .ok ({ e with phase := .slurp (k - 1) }, [])
  | .gzTrailer acc =>
    let acc' := acc ++ [b]
    if acc'.length = 8 then
      if acc' = gzipTrailerBytes e.adlerE e.countE then
        .ok ({ e with phase := .finished }, [])
      else .error .EngineError
    else .ok ({ e with phase := .gzTrailer acc' }, [])
  | .finished => .ok (e, [])
  | .newHdr => .ok (e, [])

/-- Budget-bounded greedy run of the decode core over a byte list: consume
until the input is gone, the member is finished, or the next literal byte
would exceed the output budget.  Returns the core, the produced bytes and
the unconsumed input. -/
def mrunB (crc : Nat) : Nat → EngCore → List Nat →
    Except DecErr (EngCore × List Nat × List Nat)
  | _, e, [] => .ok (e, [], [])
  | budget, e, b :: rest =>
    if e.phase = .finished then .ok (e, [], b :: rest)
    else if budget = 0 ∧ (normPhase e.phase).isData then .ok (e, [], b :: rest)
    else
      match consumeByte crc e b with
      | .error err => .error err
      | .ok (e', out) =>
        match mrunB crc (budget - out.length) e' rest with
        | .error err => .error err
        | .ok (e2, out2, rem) => .ok (e2, out ++ out2, rem)

/-- Unbounded greedy run (the budget can never bind, since at most one
output byte is produced per input byte). -/
def mrun (crc : Nat) (e : EngCore) (bs : List Nat) :
    Except DecErr (EngCore × List Nat × List Nat) :=
  mrunB crc (bs.length + 1) e bs

/-- Engine-side inflate state (`inflate_state`): the adapter-visible input
cursor (`next_in` as `inBuf`/`pos`, `avail_in`), the reported block state,
the configured `crc_flag`, and the decode core. -/
structure InflateState where
  inBuf : List Nat
  pos : Nat
  avail_in : Nat
  block_state : BlockState
  crc_flag : Nat
  core : EngCore
deriving DecidableEq, Repr

/-- `InflateState::new()` before the adapter sets `crc_flag`. -/
def InflateState.new0 : InflateState :=
  { inBuf := [], pos := 0, avail_in := 0, block_state := .NEW_HDR,
    crc_flag := 0, core := freshCore }

/-- The input window the engine currently sees. -/
def InflateState.window (z : InflateState) : List Nat :=
  (z.inBuf.drop z.pos).take z.avail_in

/-- Modelled from the spec: one step-decode cycle (`step_inflate`) with an
output window of `avail_out` bytes: run the core greedily over the input
window, advance the cursor by the bytes consumed, and report the
block-boundary state. -/
def InflateState.step_inflate (z : InflateState) (avail_out : Nat) :
    Except DecErr (InflateState × List Nat) :=
  match mrunB z.crc_flag avail_out z.core z.window with
  | .error e => .error e
  | .ok (core', out, rest) =>
    let consumed := z.window.length - rest.length
    let bstate :=
      if core'.phase.isFin then BlockState.FINISH
      else if rest.isEmpty then BlockState.CODED
      else BlockState.TYPE0
    .ok ({ z with core := core', pos := z.pos + consumed,
                  avail_in := z.avail_in - consumed, block_state := bstate },
         out)

/-- Modelled from the spec: the structural reset primitive
(`isal_inflate_reset` via `InflateState::reset`): rewind the state machine
to the next member boundary, keeping the input cursor and configuration. -/
def InflateState.reset (z : InflateState) : InflateState :=
  { z with block_state := .NEW_HDR, core := freshCore }

/-- Modelled from the spec: the repo helper `read_gzip_header` — hand a
transient header descriptor to the engine's header parser, which validates
the member header and advances the input cursor past it on success;
malformed or incomplete header bytes are a hard error. -/
def read_gzip_header (z : InflateState) : Except DecErr InflateState :=
  if z.avail_in < gzipHdr.length then .error .MalformedHeader
  else if (z.inBuf.drop z.pos).take gzipHdr.length ≠ gzipHdr then
    .error .MalformedHeader
  else
    .ok { z with pos := z.pos + gzipHdr.length,
                 avail_in := z.avail_in - gzipHdr.length,
                 block_state := .HDR,
                 core := { z.core with phase := .blkHdr [] } }

/-- Modelled from the spec: the repo helper `read_zlib_header` — read the
fixed 2-byte container header (CM = 8, valid check bits) and advance the
input cursor past those bytes; malformed or incomplete bytes are a hard
error. -/
def read_zlib_header (z : InflateState) : Except DecErr InflateState :=
  match (z.inBuf.drop z.pos).take 2 with
  | [b0, b1] =>
    if z.avail_in < 2 then .error .MalformedHeader
    else if b0 % 16 = 8 ∧ (b0 * 256 + b1) % 31 = 0 then
      .ok { z with pos := z.pos + 2, avail_in := z.avail_in - 2,
                   core := { z.core with phase := .blkHdr [] } }
    else .error .MalformedHeader
  | _ => .error .MalformedHeader

/-! ## The streaming Decoder (from `src/igzip/write.rs` lines 183–337) -/

structure Decoder where
  inner : Sink
  zst : InflateState
  out_buf : List Nat
  dsts : Nat
  dste : Nat
  codec : Codec
  adler32 : Nat
deriving DecidableEq, Repr

/-- `Decoder::new` (lines 194–207). -/
def Decoder.new (writer : Sink) (codec : Codec) : Decoder :=
  { inner := writer,
    zst := { InflateState.new0 with crc_flag := crcFlag codec },
    out_buf := [], dste := 0, dsts := 0, codec := codec, adler32 := 1 }

/-- `Decoder::write_from_out_buf` (lines 220–228). -/
def Decoder.write_from_out_buf (d : Decoder) : Decoder × Nat :=
  let count := d.dste - d.dsts
  ({ d with inner := d.inner.write_all ((d.out_buf.take d.dste).drop d.dsts),
            out_buf := [], dsts := 0, dste := 0 }, count)

/-- The `if block_state == NEW_HDR` header branch of `Decoder::write`
(lines 241–263): gzip hands a transient descriptor to the engine's header
parser; zlib forces `crc_flag` to 0 (the adapter computes the additive
checksum itself), reads the 2-byte header, then re-points the input cursor
at byte offset 2 of the current chunk (`next_in = buf[2..]`, line 260);
raw framing has no header. -/
def Decoder.newHdrBranch (codec : Codec) (z : InflateState) :
    Except DecErr InflateState :=
  match codec with
  | .Gzip => read_gzip_header z
  | .Zlib =>
    match read_zlib_header { z with crc_flag := 0 } with
    | .error e => .error e
    | .ok z' => .ok { z' with pos := 2 }
  | .Deflate => .ok z

/-- The inner `loop` of `Decoder::write` (lines 266–297): give the engine a
fresh `BUF_SIZE` output window past the bytes already produced this call,
step it, and stop at the per-codec hand-off boundary.  Fuel `avail_in + 1`
always suffices: every non-final iteration consumes at least one byte. -/
def Decoder.innerLoop (codec : Codec) :
    Nat → InflateState → List Nat → Except DecErr (InflateState × List Nat)
  | 0, _, _ => .error .EngineError
  | fuel + 1, z, acc =>
    match z.step_inflate BUF_SIZE with
    | .error e => .error e
    | .ok (z', out) =>
      let acc' := acc ++ out
      let state := z'.block_state
      match codec with
      | .Deflate | .Zlib =>
        if state = .FINISH ∨ state = .CODED then .ok (z', acc')
        else Decoder.innerLoop codec fuel z' acc'
      | .Gzip =>
        if state = .CODED ∨ state = .TYPE0 ∨ state = .HDR ∨ state = .FINISH
        then .ok (z', acc')
        else Decoder.innerLoop codec fuel z' acc'

/-- The outer `while avail_in > 0` loop of `Decoder::write` (lines
240–301): parse a member header if the engine sits at `NEW_HDR`, drive the
engine through the inner loop, and structurally reset it when a member
finished.  Fuel `2 * avail_in + 2` always suffices; a run that would spin
forever in the source surfaces as an error here. -/
def Decoder.outerLoop (codec : Codec) :
    Nat → InflateState → List Nat → Except DecErr (InflateState × List Nat)
  | 0, z, acc => if z.avail_in = 0 then .ok (z, acc) else .error .EngineError
  | fuel + 1, z, acc =>
    if z.avail_in = 0 then .ok (z, acc)
    else
      match
        (if z.block_state = .NEW_HDR then Decoder.newHdrBranch codec z
         else .ok z) with
      | .error e => .error e
      | .ok z1 =>
        match Decoder.innerLoop codec (z1.avail_in + 1) z1 acc with
        | .error e => .error e
        | .ok (z2, acc') =>
          let z3 := if z2.block_state = .FINISH then z2.reset else z2
          Decoder.outerLoop codec fuel z3 acc'

/-- `Decoder::write` (lines 232–328): point the engine at the chunk, run
the outer loop, apply the zlib additive-checksum section (lines 302–321:
only when more than 4 input bytes were available; the trailer is read from
the last 4 bytes of the chunk when the engine sits at `NEW_HDR`), truncate
staging to the bytes produced this call and hand them to the sink. -/
def Decoder.write (d : Decoder) (buf : List Nat) :
    Except DecErr (Decoder × Nat) :=
  let z0 := { d.zst with inBuf := buf, pos := 0, avail_in := buf.length }
  match Decoder.outerLoop d.codec (2 * buf.length + 2) z0 [] with
  | .error e => .error e
  | .ok (z, produced) =>
    let n_bytes := produced.length
    let adler' :=
      if d.codec = .Zlib ∧ buf.length > 4 then adlerFold d.adler32 produced
      else d.adler32
    if d.codec = .Zlib ∧ buf.length > 4 ∧ z.block_state = .NEW_HDR ∧
        adler' ≠ be32 (buf.drop (buf.length - 4)) then
      .error .IncorrectChecksum
    else
      let d1 := { d with zst := z, adler32 := adler', out_buf := produced,
                         dste := n_bytes, dsts := 0 }
      .ok ((d1.write_from_out_buf).1, buf.length)

/-- `Decoder::flush` (lines 329–336): drain `write_from_out_buf` until it
moves nothing (at most two rounds, since the first round clears the
cursors), then forward the flush to the inner writer. -/
def Decoder.flush (d : Decoder) : Decoder :=
  let r1 := d.write_from_out_buf
  let d2 := if r1.2 = 0 then r1.1 else ((r1.1).write_from_out_buf).1
  { d2 with inner := d2.inner.flush }

/-! ## Whole-pipeline helpers -/

/-- Compress a byte sequence through the streaming Encoder: one `write`
call (if nonempty) followed by `flush`, collecting the sink bytes. -/
def compressBytes (codec : Codec) (S : List Nat) : List Nat :=
  ((((Encoder.new emptySink .Three codec).write S).1).flush).inner.data

/-- Decompress a blob through the streaming Decoder in a single `write`
call, returning the sink bytes. -/
def decompressBytes (codec : Codec) (blob : List Nat) :
    Except DecErr (List Nat) :=
  match (Decoder.new emptySink codec).write blob with
  | .error e => .error e
  | .ok r => .ok r.1.inner.data

/-- Feed a list of chunks to a Decoder through consecutive `write` calls. -/
def Decoder.writeChunks (d : Decoder) :
    List (List Nat) → Except DecErr Decoder
  | [] => .ok d
  | c :: cs =>
    match d.write c with
    | .error e => .error e
    | .ok r => r.1.writeChunks cs

/-- Decompress a blob fed as a sequence of chunks, returning the sink
bytes. -/
def decompressChunks (codec : Codec) (parts : List (List Nat)) :
    Except DecErr (List Nat) :=
  match (Decoder.new emptySink codec).writeChunks parts with
  | .error e => .error e
  | .ok d => .ok d.inner.data

/-- Consistency of the engine's input-cursor arithmetic: the window the
adapter handed over lies inside the chunk. -/
def wfIn (z : InflateState) : Prop :=
  z.pos + z.avail_in ≤ z.inBuf.length

/-- The decode core consumes every proper front of `Q` completely without
reaching a member-finishing phase: the property that makes the adapter's
structural reset fire only at the very end of `Q`, wherever the chunk
boundaries fall. -/
def NoEarlyFin (crc : Nat) (e : EngCore) (Q : List Nat) : Prop :=
  ∀ x y, Q = x ++ y → y ≠ [] →
    ∃ e1 o1, mrun crc e x = .ok (e1, o1, []) ∧ e1.phase.isFin = false

/-- Projection-wise description of what one pass of the encoder write loop
does to the adapter, given the block partition `CH` the engine chose. -/
def EncLoopSpec (e : Encoder) (input : List Nat) (CH : List (List Nat))
    (r : Encoder) : Prop :=
  r.inner = e.inner ∧ r.codec = e.codec ∧ r.dsts = e.dsts ∧
  r.total_in = e.total_in ∧ r.total_out = e.total_out ∧
  r.stream.flush = e.stream.flush ∧
  r.stream.end_of_stream = e.stream.end_of_stream ∧
  r.stream.gzip_flag = e.stream.gzip_flag ∧
  r.stream.zstate_end = e.stream.zstate_end ∧
  r.stream.hdr_written = true ∧
  r.stream.adler = adlerFold e.stream.adler input ∧
  r.stream.total_in = e.stream.total_in + input.length ∧
  r.stream.total_out = e.stream.total_out +
    (e.stream.hdrPref ++ blocksBytes CH).length ∧
  r.out_buf = e.out_buf.take e.dste ++ (e.stream.hdrPref ++ blocksBytes CH) ∧
  r.dste = e.dste + (e.stream.hdrPref ++ blocksBytes CH).length

instance {ε α : Type} [DecidableEq ε] [DecidableEq α] :
    DecidableEq (Except ε α) := fun a b =>
  match a, b with
  | .ok x, .ok y =>
    if h : x = y then isTrue (by rw [h])
    else isFalse (fun hh => h (Except.ok.inj hh))
  | .error x, .error y =>
    if h : x = y then isTrue (by rw [h])
    else isFalse (fun hh => h (Except.error.inj hh))
  | .ok _, .error _ => isFalse (fun hh => Except.noConfusion hh)
  | .error _, .ok _ => isFalse (fun hh => Except.noConfusion hh)

/-! ## Arithmetic and wire-format lemmas -/

/-- One step of the additive-checksum fold. -/
def adlerStep (p : Nat × Nat) (x : Nat) : Nat × Nat :=
  ((p.1 + x) % MOD_ADLER, (p.2 + (p.1 + x) % MOD_ADLER) % MOD_ADLER)

lemma adlerFold_eq_foldl (init : Nat) (bs : List Nat) :
    adlerFold init bs =
      (bs.foldl adlerStep (init % 65536, init / 65536)).2 * 65536 +
      (bs.foldl adlerStep (init % 65536, init / 65536)).1 := by
  unfold adlerFold adlerStep
  rfl

lemma adlerStep_foldl_fst_lt (bs : List Nat) :
    ∀ p : Nat × Nat, p.1 < 65536 → (bs.foldl adlerStep p).1 < 65536 := by
  induction bs with
  | nil => intro p h; simpa using h
  | cons b bs ih =>
    intro p _
    simp only [List.foldl_cons]
    exact ih _ (Nat.lt_of_lt_of_le (Nat.mod_lt _ (by decide)) (by decide))

lemma adlerStep_foldl_snd_lt (bs : List Nat) :
    ∀ p : Nat × Nat, p.2 < 65536 → (bs.foldl adlerStep p).2 < 65536 := by
  induction bs with
  | nil => intro p h; simpa using h
  | cons b bs ih =>
    intro p _
    simp only [List.foldl_cons]
    exact ih _ (Nat.lt_of_lt_of_le (Nat.mod_lt _ (by decide)) (by decide))

lemma adlerFold_append (init : Nat) (xs ys : List Nat) :
    adlerFold init (xs ++ ys) = adlerFold (adlerFold init xs) ys := by
  rw [adlerFold_eq_foldl, adlerFold_eq_foldl, adlerFold_eq_foldl,
    List.foldl_append]
  set p := xs.foldl adlerStep (init % 65536, init / 65536) with hp
  have h1 : p.1 < 65536 := adlerStep_foldl_fst_lt xs _ (Nat.mod_lt _ (by decide))
  have hmod : (p.2 * 65536 + p.1) % 65536 = p.1 := by omega
  have hdiv : (p.2 * 65536 + p.1) / 65536 = p.2 := by omega
  rw [hmod, hdiv]

lemma adlerFold_lt (init : Nat) (bs : List Nat) (h : init < 4294967296) :
    adlerFold init bs < 4294967296 := by
  rw [adlerFold_eq_foldl]
  have h1 : (bs.foldl adlerStep (init % 65536, init / 65536)).1 < 65536 :=
    adlerStep_foldl_fst_lt bs _ (Nat.mod_lt _ (by decide))
  have h2 : (bs.foldl adlerStep (init % 65536, init / 65536)).2 < 65536 := by
    refine adlerStep_foldl_snd_lt bs _ ?_
    exact Nat.div_lt_of_lt_mul (by omega)
  omega

lemma adlerFold_singleton_append (init : Nat) (b : Nat) (bs : List Nat) :
    adlerFold (adlerFold init [b]) bs = adlerFold init (b :: bs) := by
  have := adlerFold_append init [b] bs
  simpa using this.symm

lemma be32_be32Bytes (n : Nat) (h : n < 4294967296) :
    be32 (be32Bytes n) = n := by
  simp only [be32Bytes, be32]
  omega

lemma be32Bytes_lt (n : Nat) : ∀ b ∈ be32Bytes n, b < 256 := by
  intro b hb
  simp only [be32Bytes, List.mem_cons] at hb
  rcases hb with h | h | h | h | h
  all_goals first
  | (subst h; exact Nat.mod_lt _ (by decide))
  | simp_all

/-- Changing one byte of a 4-byte list of genuine bytes changes its
big-endian value. -/
lemma be32_set_ne (t : List Nat) (ht : t.length = 4)
    (hbytes : ∀ b ∈ t, b < 256) (i : Nat) (hi : i < 4) (v : Nat)
    (hv : v < 256) (hne : v ≠ t.getD i 0) :
    be32 (t.set i v) ≠ be32 t := by
  match t, ht with
  | [a, b, c, d], _ =>
    have ha : a < 256 := hbytes a (by simp)
    have hb : b < 256 := hbytes b (by simp)
    have hc : c < 256 := hbytes c (by simp)
    have hd : d < 256 := hbytes d (by simp)
    interval_cases i <;>
      simp only [List.set, List.getD, List.get?, Option.getD, be32] at hne ⊢ <;>
      omega

/-! ## Encoder loop characterization -/

lemma hdrPref_length_le (s : ZStream) : s.hdrPref.length ≤ 10 := by
  unfold ZStream.hdrPref
  cases s.hdr_written <;> cases s.gzip_flag <;> simp [hdrBytes, zlibHdr, gzipHdr]

lemma writeLoop_nil : ∀ (fuel : Nat) (e : Encoder),
    Encoder.writeLoop fuel e [] = e
  | 0, _ => rfl
  | _ + 1, _ => by simp [Encoder.writeLoop]

lemma encTaken_length (s : ZStream) (B : Nat) (input : List Nat) :
    (encTaken s B input).length = min input.length (encCap s B) := by
  simp only [encTaken, List.length_take]
  omega

lemma deflate_nonempty (s : ZStream) (input : List Nat) (B : Nat)
    (h : input.isEmpty = false) :
    s.deflate input B =
      ({ s with hdr_written := true,
                adler := adlerFold s.adler (encTaken s B input),
                total_in := s.total_in + min input.length (encCap s B),
                total_out := s.total_out + (encOut s B input).length },
       input.drop (min input.length (encCap s B)),
       encOut s B input) := by
  simp only [ZStream.deflate, h, Bool.false_eq_true, if_false]

/-- The produced bytes of one nonempty encode cycle, as a stored block. -/
lemma encOut_eq (s : ZStream) (B : Nat) (input : List Nat) :
    encOut s B input = s.hdrPref ++ blockBytes (encTaken s B input) := by
  rw [encOut, blockBytes, encTaken_length]
  simp [List.append_assoc]


/-- One pass of the encoder write loop: the engine consumes the whole
input, emitting the member header (if still owed) followed by one stored
block per cycle; staging, the engine counters and the running checksum
advance accordingly.  The block partition depends on the output-window
arithmetic, so it is existentially quantified.  Fuel `input.length`
suffices because every cycle consumes at least one byte. -/
lemma writeLoop_spec :
    ∀ (fuel : Nat) (input : List Nat) (e : Encoder),
      input ≠ [] → input.length ≤ fuel → e.dste ≤ e.out_buf.length →
      ∃ CH : List (List Nat),
        CH.flatten = input ∧
        (∀ c ∈ CH, c ≠ [] ∧ c.length < 65536) ∧
        EncLoopSpec e input CH (Encoder.writeLoop fuel e input) := by
  intro fuel
  induction fuel with
  | zero =>
    intro input e hne hle
    exact absurd (List.length_eq_zero.mp (Nat.le_zero.mp hle)) hne
  | succ fuel ih =>
    intro input e hne hle hbuf
    have hinp : input.isEmpty = false := by
      cases input with
      | nil => exact absurd rfl hne
      | cons a l => rfl
    have hlen0 : 0 < input.length := List.length_pos.mpr hne
    have hhl : e.stream.hdrPref.length ≤ 10 := hdrPref_length_le e.stream
    have hcap1 : 1 ≤ encCap e.stream BUF_SIZE := by
      unfold encCap BUF_SIZE; omega
    have hcap2 : encCap e.stream BUF_SIZE < 65536 := by
      unfold encCap BUF_SIZE; omega
    set cap := encCap e.stream BUF_SIZE with hcapdef
    set taken := encTaken e.stream BUF_SIZE input with htakendef
    have htlen : taken.length = min input.length cap :=
      encTaken_length e.stream BUF_SIZE input
    -- the adapter state after the first engine cycle
    set e1 : Encoder :=
      { e with
        stream :=
          { e.stream with
            hdr_written := true,
            adler := adlerFold e.stream.adler taken,
            total_in := e.stream.total_in + min input.length cap,
            total_out := e.stream.total_out +
              (encOut e.stream BUF_SIZE input).length },
        out_buf := e.out_buf.take e.dste ++ encOut e.stream BUF_SIZE input,
        dste := e.dste + (encOut e.stream BUF_SIZE input).length } with he1
    have hstep : Encoder.writeLoop (fuel + 1) e input =
        Encoder.writeLoop fuel e1 (input.drop (min input.length cap)) := by
      rw [he1]
      simp only [Encoder.writeLoop, hinp, Bool.false_eq_true, if_false,
        deflate_nonempty e.stream input BUF_SIZE hinp, hcapdef, htakendef]
    have hout1 : e1.out_buf.length = e1.dste := by
      rw [he1]
      simp only [List.length_append, List.length_take]
      omega
    have hpref1 : e1.stream.hdrPref = [] := by
      rw [he1]; simp [ZStream.hdrPref]
    have hencout : encOut e.stream BUF_SIZE input =
        e.stream.hdrPref ++ blockBytes taken := by
      rw [encOut_eq, htakendef]
    by_cases hsmall : input.length ≤ cap
    · -- the whole remainder fits one block
      have hk : min input.length cap = input.length := Nat.min_eq_left hsmall
      have htin : taken = input := by
        rw [htakendef, encTaken, ← hcapdef, hk, List.take_length]
      have hres : Encoder.writeLoop (fuel + 1) e input = e1 := by
        rw [hstep, hk, List.drop_length, writeLoop_nil]
      refine ⟨[input], by simp, ?_, ?_⟩
      · intro c hc
        simp only [List.mem_singleton] at hc
        subst hc
        exact ⟨hne, lt_of_le_of_lt hsmall hcap2⟩
      · rw [hres, he1]
        unfold EncLoopSpec
        refine ⟨rfl, rfl, rfl, rfl, rfl, rfl, rfl, rfl, rfl, rfl, ?_, ?_,
          ?_, ?_, ?_⟩
        · simp [htin]
        · simp [hk]
        · simp only
          rw [hencout, htin]
          simp [blocksBytes]
        · simp only
          rw [hencout, htin]
          simp [blocksBytes]
        · simp only
          rw [hencout, htin]
          simp [blocksBytes]
    · -- one full block is cut off, recurse on the rest
      have hk : min input.length cap = cap :=
        Nat.min_eq_right (le_of_not_le hsmall)
      set rest := input.drop cap with hrestdef
      have htlen' : taken.length = cap := by rw [htlen, hk]
      have hrlen : rest.length = input.length - cap := by
        rw [hrestdef, List.length_drop]
      have hrne : rest ≠ [] := by
        intro h
        have := congrArg List.length h
        simp only [hrlen, List.length_nil] at this
        omega
      have htne : taken ≠ [] := by
        intro h
        have := congrArg List.length h
        simp only [htlen', List.length_nil] at this
        omega
      have htr : taken ++ rest = input := by
        rw [htakendef, encTaken, ← hcapdef, hk, hrestdef,
          List.take_append_drop]
      have hrest' : input.drop (min input.length cap) = rest := by
        rw [hk]
      obtain ⟨CH, hflat, hvalid, hspec⟩ :=
        ih rest e1 hrne (by omega) (le_of_eq hout1.symm)
      refine ⟨taken :: CH, ?_, ?_, ?_⟩
      · simp [hflat, htr]
      · intro c hc
        rcases List.mem_cons.mp hc with h | h
        · subst h
          exact ⟨htne, by rw [htlen']; exact hcap2⟩
        · exact hvalid c h
      · rw [hstep, hrest']
        obtain ⟨s1, s2, s3, s4, s5, s6, s7, s8, s9, s10, s11, s12, s13,
          s14, s15⟩ := hspec
        have htake1 : e1.out_buf.take e1.dste = e1.out_buf := by
          rw [List.take_of_length_le (le_of_eq hout1)]
        unfold EncLoopSpec
        refine ⟨?_, ?_, ?_, ?_, ?_, ?_, ?_, ?_, ?_, s10, ?_, ?_, ?_, ?_, ?_⟩
        · rw [s1, he1]
        · rw [s2, he1]
        · rw [s3, he1]
        · rw [s4, he1]
        · rw [s5, he1]
        · rw [s6, he1]
        · rw [s7, he1]
        · rw [s8, he1]
        · rw [s9, he1]
        · rw [s11, he1]
          simp only
          rw [← adlerFold_append, htr]
        · rw [s12, he1]
          simp only
          have h1 : taken.length + rest.length = input.length := by
            rw [← htr]; simp
          rw [hk]
          omega
        · rw [s13, hpref1, he1]
          simp only [List.nil_append]
          rw [hencout]
          simp only [blocksBytes, List.map_cons, List.flatten_cons,
            List.length_append]
          omega
        · rw [s14, htake1, hpref1, he1]
          simp only [List.nil_append]
          rw [hencout]
          simp only [blocksBytes, List.map_cons, List.flatten_cons,
            List.append_assoc]
        · rw [s15, hpref1, he1]
          simp only [List.nil_append]
          rw [hencout]
          simp only [blocksBytes, List.map_cons, List.flatten_cons,
            List.length_append]
          omega

/-- Projection-wise description of `Encoder::write` on nonempty input:
the call consumes the whole chunk, stages header plus stored blocks, hands
everything staged to the sink, and reports `buf.len()`. -/
lemma write_spec (e : Encoder) (buf : List Nat) (hne : buf ≠ [])
    (hdsts : e.dsts = 0) (hbuf : e.dste ≤ e.out_buf.length) :
    ∃ CH : List (List Nat),
      CH.flatten = buf ∧ (∀ c ∈ CH, c ≠ [] ∧ c.length < 65536) ∧
      (e.write buf).2 = buf.length ∧
      (e.write buf).1.inner = e.inner.write_all
        (e.out_buf.take e.dste ++ (e.stream.hdrPref ++ blocksBytes CH)) ∧
      (e.write buf).1.out_buf = [] ∧ (e.write buf).1.dsts = 0 ∧
      (e.write buf).1.dste = 0 ∧
      (e.write buf).1.codec = e.codec ∧
      (e.write buf).1.total_in = e.total_in ∧
      (e.write buf).1.total_out = e.total_out ∧
      (e.write buf).1.stream.flush = e.stream.flush ∧
      (e.write buf).1.stream.end_of_stream = e.stream.end_of_stream ∧
      (e.write buf).1.stream.gzip_flag = e.stream.gzip_flag ∧
      (e.write buf).1.stream.zstate_end = e.stream.zstate_end ∧
      (e.write buf).1.stream.hdr_written = true ∧
      (e.write buf).1.stream.adler = adlerFold e.stream.adler buf ∧
      (e.write buf).1.stream.total_in = e.stream.total_in + buf.length ∧
      (e.write buf).1.stream.total_out = e.stream.total_out +
        (e.stream.hdrPref ++ blocksBytes CH).length := by
  have hinp : buf.isEmpty = false := by
    cases buf with
    | nil => exact absurd rfl hne
    | cons a l => rfl
  obtain ⟨CH, hflat, hvalid, hspec⟩ :=
    writeLoop_spec buf.length buf e hne le_rfl hbuf
  obtain ⟨s1, s2, s3, s4, s5, s6, s7, s8, s9, s10, s11, s12, s13, s14,
    s15⟩ := hspec
  set r := Encoder.writeLoop buf.length e buf with hr
  have hwr : e.write buf = ((r.write_from_out_buf).1, buf.length) := by
    rw [Encoder.write]
    simp only [hinp, Bool.false_eq_true, if_false]
  have hlen : r.out_buf.length = r.dste := by
    rw [s14, s15]
    simp only [List.length_append, List.length_take]
    omega
  have htk : (r.out_buf.take r.dste).drop r.dsts = r.out_buf := by
    rw [List.take_of_length_le (le_of_eq hlen), s3, hdsts, List.drop_zero]
  refine ⟨CH, hflat, hvalid, ?_⟩
  rw [hwr]
  unfold Encoder.write_from_out_buf
  simp only [htk]
  refine ⟨?_, ?_, ?_, ?_, ?_, ?_, ?_, ?_, ?_, ?_, ?_, ?_, ?_, ?_, ?_, ?_⟩
  all_goals first
  | rfl
  | trivial
  | (rw [s1, s14])
  | rw [s2]
  | rw [s4]
  | rw [s5]
  | rw [s6]
  | rw [s7]
  | rw [s8]
  | rw [s9]
  | exact s10
  | exact s11
  | exact s12
  | exact s13

/-- The terminating full-flush engine cycle. -/
lemma deflate_flush (s : ZStream) (B : Nat) (he : s.end_of_stream = true)
    (hf : s.flush = .FullFlush) (hz : s.zstate_end = false) :
    s.deflate [] B =
      ({ s with hdr_written := true, zstate_end := true,
                total_out := s.total_out + (flushOut s).length }, [],
       flushOut s) := by
  simp [ZStream.deflate, he, hf, hz]

/-- Arming the flush flags does not change what the terminating cycle
emits. -/
lemma flushOut_arm (s : ZStream) :
    flushOut { s with end_of_stream := true, flush := .FullFlush } =
      flushOut s := by
  simp [flushOut, ZStream.hdrPref]

/-- The flush loop from an armed, unfinished state: one terminating cycle
stages the trailer bytes and parks the engine at `ZSTATE_END`. -/
lemma flushLoop_two (e : Encoder) (he : e.stream.end_of_stream = true)
    (hf : e.stream.flush = .FullFlush) (hz : e.stream.zstate_end = false) :
    Encoder.flushLoop 2 e =
      { e with
        stream :=
          { e.stream with
            hdr_written := true, zstate_end := true,
            total_out := e.stream.total_out + (flushOut e.stream).length },
        out_buf := e.out_buf.take e.dste ++ flushOut e.stream,
        dste := e.dste + (flushOut e.stream).length } := by
  have hd := deflate_flush e.stream BUF_SIZE he hf hz
  simp only [Encoder.flushLoop, hz, Bool.false_eq_true, if_false, hd]
  simp [Encoder.flushLoop]

/-- Full description of `Encoder::flush` from a state with drained staging
cursors and an unfinished engine: the trailer bytes are staged and handed
to the sink, the sink is flushed, the engine totals fold into the persisted
counters, and the engine is structurally reset with flags re-armed. -/
lemma flush_spec (e : Encoder) (hdsts : e.dsts = 0)
    (hbuf : e.dste ≤ e.out_buf.length) (hz : e.stream.zstate_end = false) :
    e.flush =
      { inner := (e.inner.write_all
          (e.out_buf.take e.dste ++ flushOut e.stream)).flush,
        stream :=
          { total_in := 0, total_out := 0, flush := .NoFlush,
            end_of_stream := false, gzip_flag := e.codec,
            hdr_written := false, adler := 1, zstate_end := false },
        out_buf := [], dsts := 0, dste := 0,
        total_in := e.total_in + e.stream.total_in,
        total_out := e.total_out + e.stream.total_out +
          (flushOut e.stream).length,
        codec := e.codec } := by
  have harm :
      ({ e with stream :=
          { e.stream with end_of_stream := true, flush := .FullFlush }
        } : Encoder).stream.zstate_end = false := hz
  simp only [Encoder.flush]
  rw [flushLoop_two _ rfl rfl harm]
  simp only [flushOut_arm]
  unfold Encoder.write_from_out_buf isal_deflate_reset
  simp only [hdsts, List.drop_zero]
  have htk : ((e.out_buf.take e.dste ++ flushOut e.stream).take
      (e.dste + (flushOut e.stream).length)) =
      e.out_buf.take e.dste ++ flushOut e.stream := by
    rw [List.take_of_length_le]
    simp only [List.length_append, List.length_take]
    omega
  simp only [htk]
  simp only [Encoder.mk.injEq, ZStream.mk.injEq]
  repeat' apply And.intro
  all_goals first | rfl | trivial | omega

lemma flushOut_of_written (s : ZStream) (hw : s.hdr_written = true) :
    flushOut s = [1, 0, 0] ++ trailerBytes s.gzip_flag s.adler s.total_in := by
  simp [flushOut, ZStream.hdrPref, hw]

lemma adlerFold_nil (init : Nat) (h : init < 4294967296) :
    adlerFold init [] = init := by
  rw [adlerFold_eq_foldl]
  simp only [List.foldl_nil]
  omega

/-- The blob the streaming Encoder produces for `S` (one `write`, then
`flush`) is a complete single member whose stored blocks partition `S`. -/
lemma compressBytes_spec (codec : Codec) (S : List Nat) :
    ∃ CH : List (List Nat),
      CH.flatten = S ∧ (∀ c ∈ CH, c ≠ [] ∧ c.length < 65536) ∧
      compressBytes codec S = memberBytes codec CH := by
  by_cases hS : S = []
  · subst hS
    refine ⟨[], rfl, by simp, ?_⟩
    have hw : (Encoder.new emptySink .Three codec).write [] =
        (Encoder.new emptySink .Three codec, 0) := rfl
    rw [compressBytes, hw]
    rw [flush_spec _ rfl (by simp [Encoder.new]) (by simp [Encoder.new, ZStream.new])]
    simp only [Encoder.new, ZStream.new, emptySink]
    simp [Sink.write_all, Sink.flush, flushOut, ZStream.hdrPref,
      memberBytes, payloadBytes, blocksBytes, adlerFold_nil]
  · obtain ⟨CH, hflat, hvalid, w3, w4, w5, w6, w7, w8, w9, w10, w11, w12,
      w13, w14, w15, w16, w17, w18⟩ :=
      write_spec (Encoder.new emptySink .Three codec) S hS rfl (Nat.zero_le _)
    set e1 := ((Encoder.new emptySink .Three codec).write S).1 with he1
    have hzs : e1.stream.zstate_end = false := by
      rw [w14]; simp [Encoder.new, ZStream.new]
    have hds : e1.dsts = 0 := w6
    have hbf : e1.dste ≤ e1.out_buf.length := by
      rw [w7, w5]
      exact Nat.zero_le _
    refine ⟨CH, hflat, hvalid, ?_⟩
    rw [compressBytes, ← he1, flush_spec e1 hds hbf hzs]
    simp only [w7, w5, List.take_nil, List.nil_append]
    rw [flushOut_of_written e1.stream w15]
    have hgz : e1.stream.gzip_flag = codec := by
      rw [w13]; simp [Encoder.new, ZStream.new]
    have had : e1.stream.adler = adlerFold 1 S := by
      rw [w16]; simp [Encoder.new, ZStream.new]
    have hti : e1.stream.total_in = S.length := by
      rw [w17]; simp [Encoder.new, ZStream.new]
    have hpref : (Encoder.new emptySink .Three codec).stream.hdrPref =
        hdrBytes codec := by
      simp [Encoder.new, ZStream.new, ZStream.hdrPref]
    rw [hgz, had, hti, w4, hpref]
    rw [memberBytes, payloadBytes, hflat]
    simp [Encoder.new, emptySink, Sink.write_all, Sink.flush,
      List.append_assoc]

/-! ## Decode-core (machine) composition lemmas -/

lemma consumeByte_out (crc : Nat) (e : EngCore) (b : Nat) (e' : EngCore)
    (out : List Nat) (h : consumeByte crc e b = .ok (e', out)) :
    out = [] ∨ out = [b] := by
  unfold consumeByte at h
  rcases hp : normPhase e.phase with _ | acc | ⟨r, fin⟩ | k | acc | _ <;>
    rw [hp] at h <;> dsimp only at h
  case newHdr => simp_all
  case finished => simp_all
  case slurp => split at h <;> simp_all
  case blkData =>
    split at h <;> (try split at h) <;> simp_all
  case gzTrailer =>
    split at h <;> (try split at h) <;> simp_all
  case blkHdr =>
    rcases acc with _ | ⟨x, acc⟩
    · simp_all
    · rcases acc with _ | ⟨y, acc⟩
      · simp_all
      · rcases acc with _ | ⟨z, acc⟩
        · split at h <;> (try split at h) <;> (try split at h) <;> simp_all
        · simp_all

/-- When the output budget is at least the remaining input length it never
binds: two such budgets give the same run. -/
lemma mrunB_budget (crc : Nat) : ∀ (w : List Nat) (B1 B2 : Nat) (e : EngCore),
    w.length ≤ B1 → w.length ≤ B2 →
    mrunB crc B1 e w = mrunB crc B2 e w := by
  intro w
  induction w with
  | nil => intro B1 B2 e _ _; rfl
  | cons b rest ih =>
    intro B1 B2 e h1 h2
    have hlen : (b :: rest).length = rest.length + 1 := rfl
    simp only [mrunB]
    by_cases hf : e.phase = .finished
    · rw [if_pos hf, if_pos hf]
    · have hb1 : ¬(B1 = 0 ∧ (normPhase e.phase).isData = true) := by
        rintro ⟨hz, _⟩; omega
      have hb2 : ¬(B2 = 0 ∧ (normPhase e.phase).isData = true) := by
        rintro ⟨hz, _⟩; omega
      rw [if_neg hf, if_neg hf, if_neg hb1, if_neg hb2]
      cases hc : consumeByte crc e b with
      | error err => rfl
      | ok r =>
        obtain ⟨e', out⟩ := r
        have hout := consumeByte_out crc e b e' out hc
        have houtlen : out.length ≤ 1 := by
          rcases hout with h | h <;> simp [h]
        dsimp only
        rw [ih (B1 - out.length) (B2 - out.length) e' (by omega) (by omega)]

/-- The unconsumed bytes a bounded run reports are a suffix of its input. -/
lemma mrunB_rest (crc : Nat) : ∀ (w : List Nat) (B : Nat) (e e1 : EngCore)
    (o1 r1 : List Nat), mrunB crc B e w = .ok (e1, o1, r1) →
    ∃ p, w = p ++ r1 := by
  intro w
  induction w with
  | nil =>
    intro B e e1 o1 r1 h
    simp only [mrunB] at h
    exact ⟨[], by simp_all⟩
  | cons b rest ih =>
    intro B e e1 o1 r1 h
    simp only [mrunB] at h
    split at h
    · exact ⟨[], by simp_all⟩
    · split at h
      · exact ⟨[], by simp_all⟩
      · cases hc : consumeByte crc e b with
        | error err => rw [hc] at h; simp_all
        | ok r =>
          obtain ⟨e', out⟩ := r
          rw [hc] at h
          dsimp only at h
          cases hm : mrunB crc (B - out.length) e' rest with
          | error err => rw [hm] at h; simp_all
          | ok r2 =>
            obtain ⟨e2, o2, r2'⟩ := r2
            rw [hm] at h
            dsimp only at h
            obtain ⟨p, hp⟩ := ih _ _ _ _ _ hm
            refine ⟨b :: p, ?_⟩
            have : r2' = r1 := by simp_all
            subst this
            simp [hp]

/-- A bounded run that stops with input left over stops either at a
finished member or at a literal byte with the output window full. -/
lemma mrunB_stop (crc : Nat) : ∀ (w : List Nat) (B : Nat) (e e1 : EngCore)
    (o1 : List Nat) (b : Nat) (r' : List Nat),
    mrunB crc B e w = .ok (e1, o1, b :: r') →
    e1.phase = .finished ∨ (normPhase e1.phase).isData = true := by
  intro w
  induction w with
  | nil =>
    intro B e e1 o1 b r' h
    simp only [mrunB] at h
    simp_all
  | cons c rest ih =>
    intro B e e1 o1 b r' h
    simp only [mrunB] at h
    split at h
    · rename_i hfin
      left
      have h1 : e1 = e := by simp_all
      rw [h1]
      exact hfin
    · split at h
      · rename_i hfin hbd
        right
        have h1 : e1 = e := by simp_all
        rw [h1]
        exact hbd.2
      · cases hc : consumeByte crc e c with
        | error err => rw [hc] at h; simp_all
        | ok r =>
          obtain ⟨e', out⟩ := r
          rw [hc] at h
          dsimp only at h
          cases hm : mrunB crc (B - out.length) e' rest with
          | error err => rw [hm] at h; simp_all
          | ok r2 =>
            obtain ⟨e2, o2, r2'⟩ := r2
            rw [hm] at h
            dsimp only at h
            have h1 : e2 = e1 ∧ r2' = b :: r' := by simp_all
            obtain ⟨he2, hr2⟩ := h1
            subst he2
            subst hr2
            exact ih _ _ _ _ _ _ hm

/-- A bounded run that fails makes the unbounded run fail identically. -/
lemma mrunB_error (crc : Nat) : ∀ (w : List Nat) (B : Nat) (e : EngCore)
    (err : DecErr), mrunB crc B e w = .error err →
    mrun crc e w = .error err := by
  intro w
  induction w with
  | nil => intro B e err h; simp only [mrunB] at h; exact absurd h (by simp)
  | cons b rest ih =>
    intro B e err h
    simp only [mrunB] at h
    split at h
    · simp_all
    · split at h
      · simp_all
      · rename_i hf hb
        rw [mrun]
        simp only [mrunB]
        rw [if_neg hf]
        rw [if_neg (by rintro ⟨hz, _⟩; simp at hz)]
        cases hc : consumeByte crc e b with
        | error e2 => rw [hc] at h; simp_all
        | ok r =>
          obtain ⟨e', out⟩ := r
          rw [hc] at h
          dsimp only at h
          dsimp only
          have houtlen : out.length ≤ 1 := by
            rcases consumeByte_out crc e b e' out hc with h2 | h2 <;>
              simp [h2]
          cases hm : mrunB crc (B - out.length) e' rest with
          | error e3 =>
            rw [hm] at h
            dsimp only at h
            have hih := ih _ _ _ hm
            rw [mrun] at hih
            rw [mrunB_budget crc rest ((b :: rest).length + 1 - out.length)
              (rest.length + 1) e' (by simp; omega) (by omega), hih]
            simp_all
          | ok r2 => rw [hm] at h; dsimp only at h; exact absurd h (by simp)

/-- Composition: an unbounded run is a bounded run continued (unbounded)
on its unconsumed bytes. -/
lemma mrunB_mrun (crc : Nat) : ∀ (w : List Nat) (B : Nat) (e e1 : EngCore)
    (o1 r1 : List Nat), mrunB crc B e w = .ok (e1, o1, r1) →
    mrun crc e w =
      (match mrun crc e1 r1 with
        | .ok (e2, o2, r2) => .ok (e2, o1 ++ o2, r2)
        | .error err => .error err) := by
  intro w
  induction w with
  | nil =>
    intro B e e1 o1 r1 h
    simp only [mrunB] at h
    have h1 : e1 = e ∧ o1 = [] ∧ r1 = [] := by simp_all
    obtain ⟨he, ho, hr⟩ := h1
    subst he; subst ho; subst hr
    rfl
  | cons b rest ih =>
    intro B e e1 o1 r1 h
    simp only [mrunB] at h
    split at h
    · rename_i hfin
      have h1 : e1 = e ∧ o1 = [] ∧ r1 = b :: rest := by simp_all
      obtain ⟨he, ho, hr⟩ := h1
      subst ho; subst hr
      rw [he]
      have hstop : mrun crc e (b :: rest) = .ok (e, [], b :: rest) := by
        rw [mrun]
        simp only [mrunB]
        rw [if_pos (he ▸ hfin)]
      rw [hstop]
      simp
    · split at h
      · have h1 : e1 = e ∧ o1 = [] ∧ r1 = b :: rest := by simp_all
        obtain ⟨he, ho, hr⟩ := h1
        subst ho; subst hr
        rw [he]
        cases hx : mrun crc e (b :: rest) with
        | error err => rfl
        | ok r2 =>
          obtain ⟨e2, o2, r2'⟩ := r2
          simp
      · rename_i hf hb
        cases hc : consumeByte crc e b with
        | error e2 => rw [hc] at h; simp_all
        | ok r =>
          obtain ⟨e', out⟩ := r
          rw [hc] at h
          dsimp only at h
          have houtlen : out.length ≤ 1 := by
            rcases consumeByte_out crc e b e' out hc with h2 | h2 <;>
              simp [h2]
          cases hm : mrunB crc (B - out.length) e' rest with
          | error e3 => rw [hm] at h; simp_all
          | ok r2 =>
            obtain ⟨e2, o2, r2'⟩ := r2
            rw [hm] at h
            dsimp only at h
            have h1 : e2 = e1 ∧ out ++ o2 = o1 ∧ r2' = r1 := by simp_all
            obtain ⟨he2, ho2, hr2⟩ := h1
            subst he2; subst hr2
            rw [← ho2]
            have hih := ih _ _ _ _ _ hm
            rw [mrun]
            simp only [mrunB]
            rw [if_neg hf]
            rw [if_neg (by rintro ⟨hz, _⟩; simp at hz)]
            rw [hc]
            dsimp only
            rw [mrunB_budget crc rest ((b :: rest).length + 1 - out.length)
              (rest.length + 1) e' (by simp; omega) (by omega)]
            rw [← mrun, hih]
            cases hx : mrun crc e2 r2' with
            | error err => rfl
            | ok r3 =>
              obtain ⟨e3, o3, r3'⟩ := r3
              dsimp only
              rw [List.append_assoc]

/-! ## Adapter loops versus the decode core -/

lemma window_length (z : InflateState) (h : wfIn z) :
    z.window.length = z.avail_in := by
  unfold wfIn at h
  simp only [InflateState.window, List.length_take, List.length_drop]
  omega

lemma step_inflate_ok (z : InflateState) (B : Nat) (c1 : EngCore)
    (o1 r1 : List Nat) (h : mrunB z.crc_flag B z.core z.window = .ok (c1, o1, r1)) :
    z.step_inflate B = .ok
      ({ z with
          core := c1,
          pos := z.pos + (z.window.length - r1.length),
          avail_in := z.avail_in - (z.window.length - r1.length),
          block_state := if c1.phase.isFin then .FINISH
            else if r1.isEmpty then .CODED else .TYPE0 }, o1) := by
  rw [InflateState.step_inflate, h]

lemma step_inflate_err (z : InflateState) (B : Nat) (err : DecErr)
    (h : mrunB z.crc_flag B z.core z.window = .error err) :
    z.step_inflate B = .error err := by
  rw [InflateState.step_inflate, h]

/-- Moving the cursor past the consumed prefix leaves exactly the
unconsumed bytes in the window. -/
lemma window_after (z : InflateState) (p r1 : List Nat)
    (hw : z.window = p ++ r1) (hwf : wfIn z) :
    (z.inBuf.drop (z.pos + p.length)).take (z.avail_in - p.length) = r1 := by
  have hlen : z.window.length = z.avail_in := window_length z hwf
  have hplen : p.length + r1.length = z.avail_in := by
    rw [← hlen, hw]
    simp
  have h1 : (z.inBuf.drop (z.pos + p.length)) =
      (z.inBuf.drop z.pos).drop p.length := by
    rw [List.drop_drop, Nat.add_comm]
  rw [h1]
  have h2 : ((z.inBuf.drop z.pos).drop p.length).take (z.avail_in - p.length) =
      ((z.inBuf.drop z.pos).take z.avail_in).drop p.length := by
    rw [List.drop_take]
  rw [h2]
  rw [show (z.inBuf.drop z.pos).take z.avail_in = z.window from rfl, hw]
  simp

lemma not_isFin_of_norm_isData (p : IPhase)
    (h : (normPhase p).isData = true) : p.isFin = false := by
  cases p <;> simp_all [normPhase, IPhase.isData, IPhase.isFin]

lemma mrun_nil (crc : Nat) (e : EngCore) : mrun crc e [] = .ok (e, [], []) := rfl

lemma mrun_finished (crc : Nat) (e : EngCore) (w : List Nat)
    (h : e.phase = .finished) (hw : w ≠ []) :
    mrun crc e w = .ok (e, [], w) := by
  cases w with
  | nil => exact absurd rfl hw
  | cons b rest =>
    rw [mrun]
    simp only [mrunB]
    rw [if_pos h]

/-- A bounded run with a nonzero budget from an unfinished state consumes
at least one byte. -/
lemma mrunB_progress (crc : Nat) (B : Nat) (e e1 : EngCore) (b0 : Nat)
    (w' : List Nat) (o1 r1 : List Nat)
    (h : mrunB crc B e (b0 :: w') = .ok (e1, o1, r1)) (hB : B ≠ 0)
    (hf : e.phase ≠ .finished) : r1.length ≤ w'.length := by
  simp only [mrunB] at h
  rw [if_neg hf] at h
  rw [if_neg (by rintro ⟨hz, _⟩; exact hB hz)] at h
  cases hc : consumeByte crc e b0 with
  | error err => rw [hc] at h; simp_all
  | ok r =>
    obtain ⟨e', out⟩ := r
    rw [hc] at h
    dsimp only at h
    cases hm : mrunB crc (B - out.length) e' w' with
    | error err => rw [hm] at h; simp_all
    | ok r2 =>
      obtain ⟨e2, o2, r2'⟩ := r2
      rw [hm] at h
      dsimp only at h
      obtain ⟨p, hp⟩ := mrunB_rest crc w' _ _ _ _ _ hm
      have : r2' = r1 := by simp_all
      subst this
      have := congrArg List.length hp
      simp at this
      omega

/-- One unfolding of the inner decode loop for the raw and
additive-checksum formats. -/
lemma innerLoop_dz_step (codec : Codec)
    (hcodec : codec = .Deflate ∨ codec = .Zlib)
    (fuel : Nat) (z : InflateState) (acc : List Nat) (z1 : InflateState)
    (o1 : List Nat) (hs : z.step_inflate BUF_SIZE = .ok (z1, o1)) :
    Decoder.innerLoop codec (fuel + 1) z acc =
      if z1.block_state = .FINISH ∨ z1.block_state = .CODED
      then .ok (z1, acc ++ o1)
      else Decoder.innerLoop codec fuel z1 (acc ++ o1) := by
  rcases hcodec with hc | hc <;> subst hc <;>
    simp only [Decoder.innerLoop, hs]

/-- One unfolding of the inner decode loop for the self-checksummed
format. -/
lemma innerLoop_gzip_step (fuel : Nat) (z : InflateState) (acc : List Nat)
    (z1 : InflateState) (o1 : List Nat)
    (hs : z.step_inflate BUF_SIZE = .ok (z1, o1)) :
    Decoder.innerLoop .Gzip (fuel + 1) z acc =
      if z1.block_state = .CODED ∨ z1.block_state = .TYPE0 ∨
         z1.block_state = .HDR ∨ z1.block_state = .FINISH
      then .ok (z1, acc ++ o1)
      else Decoder.innerLoop .Gzip fuel z1 (acc ++ o1) := by
  simp only [Decoder.innerLoop, hs]

lemma mrunB_finished_cons (crc B : Nat) (e : EngCore) (x : Nat)
    (xs : List Nat) (h : e.phase = .finished) :
    mrunB crc B e (x :: xs) = .ok (e, [], x :: xs) := by
  simp only [mrunB]
  rw [if_pos h]

/-- The inner loop for the raw and additive-checksum formats drives the
engine through the whole input window, over as many fresh `BUF_SIZE` output
windows as needed, and stops at the `FINISH` or `CODED` hand-off
boundary. -/
lemma innerLoop_dz (codec : Codec)
    (hcodec : codec = .Deflate ∨ codec = .Zlib) :
    ∀ (fuel : Nat) (z : InflateState) (acc : List Nat)
      (cf : EngCore) (outs : List Nat),
      wfIn z → z.avail_in + 1 ≤ fuel →
      mrun z.crc_flag z.core z.window = .ok (cf, outs, []) →
      Decoder.innerLoop codec fuel z acc =
        .ok ({ z with
                core := cf,
                pos := z.pos + z.avail_in,
                avail_in := 0,
                block_state := if cf.phase.isFin then .FINISH else .CODED },
             acc ++ outs) := by
  intro fuel
  induction fuel with
  | zero => intro z acc cf outs _ hle _; omega
  | succ fuel ih =>
    intro z acc cf outs hwf hle hm
    have hwlen := window_length z hwf
    cases hs : mrunB z.crc_flag BUF_SIZE z.core z.window with
    | error err =>
      rw [mrunB_error z.crc_flag z.window BUF_SIZE z.core err hs] at hm
      exact absurd hm (by simp)
    | ok r =>
      obtain ⟨c1, o1, r1⟩ := r
      have hcomp := mrunB_mrun z.crc_flag z.window BUF_SIZE z.core c1 o1 r1 hs
      rw [hm] at hcomp
      rw [innerLoop_dz_step codec hcodec fuel z acc _ _
        (step_inflate_ok z BUF_SIZE c1 o1 r1 hs)]
      cases r1 with
      | nil =>
        rw [mrun_nil] at hcomp
        dsimp only at hcomp
        have hcf : cf = c1 := by simp_all
        have houts : outs = o1 := by simp_all
        subst hcf
        subst houts
        simp only [List.isEmpty_nil, if_true, List.length_nil, Nat.sub_zero]
        rw [if_pos (by by_cases hf : cf.phase.isFin = true <;> simp [hf])]
        simp only [Except.ok.injEq, Prod.mk.injEq, InflateState.mk.injEq]
        repeat' apply And.intro
        all_goals first | rfl | trivial | omega
      | cons b r' =>
        -- the step filled its output window mid-window
        have hnotfin : ¬ c1.phase = .finished := by
          intro hfin
          rw [mrun_finished z.crc_flag c1 (b :: r') hfin (by simp)] at hcomp
          dsimp only at hcomp
          simp at hcomp
        have hdata : (normPhase c1.phase).isData = true := by
          rcases mrunB_stop z.crc_flag z.window BUF_SIZE z.core c1 o1 b r'
            hs with h | h
          · exact absurd h hnotfin
          · exact h
        have hfinfalse : c1.phase.isFin = false :=
          not_isFin_of_norm_isData c1.phase hdata
        cases hm1 : mrun z.crc_flag c1 (b :: r') with
        | error err => rw [hm1] at hcomp; simp at hcomp
        | ok r2 =>
          obtain ⟨c2, o2, r2'⟩ := r2
          rw [hm1] at hcomp
          dsimp only at hcomp
          have hc2 : c2 = cf := by simp_all
          have hr2 : r2' = [] := by simp_all
          have ho2 : o1 ++ o2 = outs := by simp_all
          rw [hc2, hr2] at hm1
          obtain ⟨p, hp⟩ := mrunB_rest z.crc_flag z.window BUF_SIZE z.core
            c1 o1 (b :: r') hs
          have hplen : p.length + (b :: r').length = z.avail_in := by
            have := congrArg List.length hp
            simp only [List.length_append] at this
            omega
          have hcons : z.window.length - (b :: r').length = p.length := by
            omega
          have hprog : (b :: r').length + 1 ≤ z.avail_in := by
            cases hwin : z.window with
            | nil =>
              rw [hwin] at hp
              exact absurd hp.symm (by simp)
            | cons w0 wrest =>
              rw [hwin] at hs
              have hfw : z.core.phase ≠ .finished := by
                intro hzf
                have heq : mrunB z.crc_flag BUF_SIZE z.core (w0 :: wrest) =
                    .ok (z.core, [], w0 :: wrest) := mrunB_finished_cons
                  z.crc_flag BUF_SIZE z.core w0 wrest hzf
                rw [heq] at hs
                simp only [Except.ok.injEq, Prod.mk.injEq] at hs
                exact hnotfin (hs.1 ▸ hzf)
              have hle2 := mrunB_progress z.crc_flag BUF_SIZE z.core c1 w0
                wrest o1 (b :: r') hs (by unfold BUF_SIZE; omega) hfw
              have hwl : z.window.length = wrest.length + 1 := by
                rw [hwin]
                rfl
              omega
          -- the loop does not break on TYPE0: normalize the block state
          simp only [hfinfalse, Bool.false_eq_true, if_false,
            List.isEmpty_cons]
          rw [if_neg (by simp)]
          -- the continuation state seen by the recursive call
          have hzw : ({ z with
              core := c1,
              pos := z.pos + (z.window.length - (b :: r').length),
              avail_in := z.avail_in - (z.window.length - (b :: r').length),
              block_state := BlockState.TYPE0 } :
              InflateState).window = b :: r' := by
            show (z.inBuf.drop (z.pos + (z.window.length - (b :: r').length))).take
              (z.avail_in - (z.window.length - (b :: r').length)) = b :: r'
            rw [hcons]
            exact window_after z p (b :: r') hp hwf
          have hih := ih
            { z with
              core := c1,
              pos := z.pos + (z.window.length - (b :: r').length),
              avail_in := z.avail_in - (z.window.length - (b :: r').length),
              block_state := BlockState.TYPE0 }
            (acc ++ o1) cf o2
            (by
              unfold wfIn at hwf ⊢
              simp only
              omega)
            (by
              simp only
              omega)
            (by
              rw [hzw]
              exact hm1)
          rw [hih]
          simp only [Except.ok.injEq, Prod.mk.injEq, InflateState.mk.injEq]
          repeat' apply And.intro
          all_goals first | rfl | trivial | omega | (rw [← ho2, List.append_assoc])

lemma outerLoop_avail0 (codec : Codec) : ∀ (fuel : Nat) (z : InflateState)
    (acc : List Nat), z.avail_in = 0 →
    Decoder.outerLoop codec fuel z acc = .ok (z, acc)
  | 0, z, acc, h => by simp only [Decoder.outerLoop, if_pos h]
  | fuel + 1, z, acc, h => by simp only [Decoder.outerLoop, if_pos h]

/-- The outer decode loop for the raw and additive-checksum formats, on a
nonempty window, away from a member boundary (for raw framing the header
branch is a no-op anywhere): one inner pass consumes the whole window, and
a finished member is structurally reset before the loop exits. -/
lemma outerLoop_dz (codec : Codec)
    (hcodec : codec = .Deflate ∨ codec = .Zlib)
    (fuel : Nat) (z : InflateState) (acc : List Nat)
    (cf : EngCore) (outs : List Nat)
    (hwf : wfIn z) (hle : z.avail_in + 2 ≤ fuel) (h0 : z.avail_in ≠ 0)
    (hhdr : codec = .Zlib → z.block_state ≠ .NEW_HDR)
    (hm : mrun z.crc_flag z.core z.window = .ok (cf, outs, [])) :
    Decoder.outerLoop codec fuel z acc =
      .ok ((if cf.phase.isFin
            then { z with
                    core := freshCore,
                    pos := z.pos + z.avail_in,
                    avail_in := 0,
                    block_state := .NEW_HDR }
            else { z with
                    core := cf,
                    pos := z.pos + z.avail_in,
                    avail_in := 0,
                    block_state := .CODED }),
           acc ++ outs) := by
  obtain ⟨f, rfl⟩ : ∃ f, fuel = f + 1 := ⟨fuel - 1, by omega⟩
  simp only [Decoder.outerLoop, if_neg h0]
  have hbr : (if z.block_state = .NEW_HDR
      then Decoder.newHdrBranch codec z else .ok z) = .ok z := by
    rcases hcodec with hc | hc
    · subst hc
      split <;> rfl
    · subst hc
      rw [if_neg (hhdr rfl)]
  rw [hbr]
  dsimp only
  rw [innerLoop_dz codec hcodec (z.avail_in + 1) z acc cf outs hwf le_rfl hm]
  dsimp only
  by_cases hfin : cf.phase.isFin = true
  · simp only [hfin, if_true]
    rw [outerLoop_avail0 codec f _ _ rfl]
    simp [InflateState.reset]
  · simp only [hfin, Bool.false_eq_true, if_false]
    rw [if_neg (by simp)]
    rw [outerLoop_avail0 codec f _ _ rfl]

/-- The outer decode loop for the self-checksummed format away from a
member boundary: the inner loop hands back after every engine step, so the
outer loop iterates the steps itself until the member finishes exactly at
the window end, then performs the structural reset. -/
lemma outerLoop_gzip_mid :
    ∀ (fuel : Nat) (z : InflateState) (acc : List Nat)
      (cf : EngCore) (outs : List Nat),
      wfIn z → z.avail_in + 1 ≤ fuel → z.avail_in ≠ 0 →
      z.block_state ≠ .NEW_HDR →
      mrun z.crc_flag z.core z.window = .ok (cf, outs, []) →
      cf.phase.isFin = true →
      Decoder.outerLoop .Gzip fuel z acc =
        .ok ({ z with
                core := freshCore,
                pos := z.pos + z.avail_in,
                avail_in := 0,
                block_state := .NEW_HDR }, acc ++ outs) := by
  intro fuel
  induction fuel with
  | zero => intro z acc cf outs _ hle h0 _ _ _; omega
  | succ fuel ih =>
    intro z acc cf outs hwf hle h0 hbs hm hfin
    have hwlen := window_length z hwf
    simp only [Decoder.outerLoop, if_neg h0]
    rw [if_neg hbs]
    dsimp only
    obtain ⟨a0, ha0⟩ : ∃ a0, z.avail_in = a0 + 1 :=
      ⟨z.avail_in - 1, by omega⟩
    cases hs : mrunB z.crc_flag BUF_SIZE z.core z.window with
    | error err =>
      rw [mrunB_error z.crc_flag z.window BUF_SIZE z.core err hs] at hm
      exact absurd hm (by simp)
    | ok r =>
      obtain ⟨c1, o1, r1⟩ := r
      have hcomp := mrunB_mrun z.crc_flag z.window BUF_SIZE z.core c1 o1 r1 hs
      rw [hm] at hcomp
      rw [ha0]
      rw [innerLoop_gzip_step (a0 + 1) z acc _ _
        (step_inflate_ok z BUF_SIZE c1 o1 r1 hs)]
      rw [if_pos (by
        by_cases hf : c1.phase.isFin = true
        · simp [hf]
        · by_cases hr : r1.isEmpty = true <;> simp [hf, hr])]
      cases r1 with
      | nil =>
        rw [mrun_nil] at hcomp
        dsimp only at hcomp
        have hcf : cf = c1 := by simp_all
        have houts : outs = o1 := by simp_all
        subst hcf
        subst houts
        simp only [List.length_nil, Nat.sub_zero, hfin, if_true]
        try dsimp only
        rw [outerLoop_avail0 .Gzip fuel _ _ (by
          simp only [InflateState.reset]
          omega)]
        simp only [Except.ok.injEq, Prod.mk.injEq, InflateState.mk.injEq,
          InflateState.reset]
        repeat' apply And.intro
        all_goals first | rfl | trivial | omega
      | cons b r' =>
        have hnotfin : ¬ c1.phase = .finished := by
          intro hfi
          rw [mrun_finished z.crc_flag c1 (b :: r') hfi (by simp)] at hcomp
          dsimp only at hcomp
          simp at hcomp
        have hdata : (normPhase c1.phase).isData = true := by
          rcases mrunB_stop z.crc_flag z.window BUF_SIZE z.core c1 o1 b r'
            hs with h | h
          · exact absurd h hnotfin
          · exact h
        have hfinfalse : c1.phase.isFin = false :=
          not_isFin_of_norm_isData c1.phase hdata
        cases hm1 : mrun z.crc_flag c1 (b :: r') with
        | error err => rw [hm1] at hcomp; simp at hcomp
        | ok r2 =>
          obtain ⟨c2, o2, r2'⟩ := r2
          rw [hm1] at hcomp
          dsimp only at hcomp
          have hc2 : c2 = cf := by simp_all
          have hr2 : r2' = [] := by simp_all
          have ho2 : o1 ++ o2 = outs := by simp_all
          rw [hc2, hr2] at hm1
          obtain ⟨p, hp⟩ := mrunB_rest z.crc_flag z.window BUF_SIZE z.core
            c1 o1 (b :: r') hs
          have hplen : p.length + (b :: r').length = z.avail_in := by
            have := congrArg List.length hp
            simp only [List.length_append] at this
            omega
          have hcons : z.window.length - (b :: r').length = p.length := by
            omega
          have hprog : (b :: r').length + 1 ≤ z.avail_in := by
            cases hwin : z.window with
            | nil =>
              rw [hwin] at hp
              exact absurd hp.symm (by simp)
            | cons w0 wrest =>
              rw [hwin] at hs
              have hfw : z.core.phase ≠ .finished := by
                intro hzf
                have heq := mrunB_finished_cons z.crc_flag BUF_SIZE z.core
                  w0 wrest hzf
                rw [heq] at hs
                simp only [Except.ok.injEq, Prod.mk.injEq] at hs
                exact hnotfin (hs.1 ▸ hzf)
              have hle2 := mrunB_progress z.crc_flag BUF_SIZE z.core c1 w0
                wrest o1 (b :: r') hs (by unfold BUF_SIZE; omega) hfw
              have hwl : z.window.length = wrest.length + 1 := by
                rw [hwin]
                rfl
              omega
          simp only [hfinfalse, Bool.false_eq_true, if_false,
            List.isEmpty_cons]
          try dsimp only
          rw [if_neg (by simp)]
          have hzw : ({ z with
              core := c1,
              pos := z.pos + (z.window.length - (b :: r').length),
              avail_in := z.avail_in - (z.window.length - (b :: r').length),
              block_state := BlockState.TYPE0 } :
              InflateState).window = b :: r' := by
            show (z.inBuf.drop (z.pos + (z.window.length - (b :: r').length))).take
              (z.avail_in - (z.window.length - (b :: r').length)) = b :: r'
            rw [hcons]
            exact window_after z p (b :: r') hp hwf
          have hih := ih
            { z with
              core := c1,
              pos := z.pos + (z.window.length - (b :: r').length),
              avail_in := z.avail_in - (z.window.length - (b :: r').length),
              block_state := BlockState.TYPE0 }
            (acc ++ o1) cf o2
            (by
              show z.pos + (z.window.length - (b :: r').length) +
                (z.avail_in - (z.window.length - (b :: r').length)) ≤
                z.inBuf.length
              unfold wfIn at hwf
              omega)
            (by
              show z.avail_in - (z.window.length - (b :: r').length) + 1 ≤
                fuel
              rw [hcons]
              omega)
            (by
              show z.avail_in - (z.window.length - (b :: r').length) ≠ 0
              rw [hcons]
              intro hzero
              rw [← hplen, Nat.add_sub_cancel_left] at hzero
              exact absurd hzero (by simp))
            (by simp)
            (by
              rw [hzw]
              exact hm1)
            hfin
          rw [hih]
          simp only [Except.ok.injEq, Prod.mk.injEq, InflateState.mk.injEq]
          repeat' apply And.intro
          all_goals
            first
            | rfl
            | trivial
            | omega
            | rw [← ho2, List.append_assoc]

/-! ## Decode-core runs over the payload wire format -/

/-- Unfolding one byte of an unbounded run: the budget never binds, so the
run is one `consumeByte` step followed by the unbounded run on the rest. -/
lemma mrun_cons (crc : Nat) (e e' : EngCore) (b : Nat) (rest out : List Nat)
    (hf : e.phase ≠ .finished)
    (hc : consumeByte crc e b = .ok (e', out)) :
    mrun crc e (b :: rest) =
      (match mrun crc e' rest with
       | .error err => .error err
       | .ok (e2, o2, r2) => .ok (e2, out ++ o2, r2)) := by
  have houtlen : out.length ≤ 1 := by
    rcases consumeByte_out crc e b e' out hc with h | h <;> simp [h]
  rw [mrun]
  simp only [mrunB]
  rw [if_neg hf]
  rw [if_neg (by rintro ⟨hz, _⟩; simp at hz)]
  rw [hc]
  dsimp only
  rw [mrunB_budget crc rest ((b :: rest).length + 1 - out.length)
    (rest.length + 1) e' (by simp; omega) (by omega)]
  rw [← mrun]

/-- On nonempty input the fresh member-start phase and the empty
block-header collector run identically. -/
lemma mrun_fresh (crc a n b : Nat) (rest : List Nat) :
    mrun crc ⟨.newHdr, a, n⟩ (b :: rest) =
      mrun crc ⟨.blkHdr [], a, n⟩ (b :: rest) := rfl

lemma consume_hdr_one (crc a n b : Nat) :
    consumeByte crc ⟨.blkHdr [], a, n⟩ b =
      .ok (⟨.blkHdr [b], a, n⟩, []) := rfl

lemma consume_hdr_two (crc a n f0 b : Nat) :
    consumeByte crc ⟨.blkHdr [f0], a, n⟩ b =
      .ok (⟨.blkHdr [f0, b], a, n⟩, []) := rfl

/-- The third stored-block header byte of a nonempty block: the collector
holds `[0, lo]`, the incoming byte is the high length byte. -/
lemma consume_hdr_third (crc a n lo hi : Nat) (h : lo + 256 * hi ≠ 0) :
    consumeByte crc ⟨.blkHdr [0, lo], a, n⟩ hi =
      .ok (⟨.blkData (lo + 256 * hi) false, a, n⟩, []) := by
  simp only [consumeByte, normPhase, List.cons_append, List.nil_append]
  rw [if_neg h]
  rfl

/-- The third header byte of the final empty block `[1, 0, 0]`. -/
lemma consume_hdr_final (crc a n : Nat) :
    consumeByte crc ⟨.blkHdr [1, 0], a, n⟩ 0 =
      .ok (⟨phaseAfterBlockSeq crc, a, n⟩, []) := rfl

lemma consume_data_mid (crc k : Nat) (fin : Bool) (a n b : Nat)
    (h : ¬ k ≤ 1) :
    consumeByte crc ⟨.blkData k fin, a, n⟩ b =
      .ok (⟨.blkData (k - 1) fin, adlerFold a [b], n + 1⟩, [b]) := by
  simp only [consumeByte, normPhase]
  rw [if_neg h]

lemma consume_data_last (crc k : Nat) (fin : Bool) (a n b : Nat)
    (h : k ≤ 1) :
    consumeByte crc ⟨.blkData k fin, a, n⟩ b =
      .ok (⟨if fin then phaseAfterBlockSeq crc else .blkHdr [],
            adlerFold a [b], n + 1⟩, [b]) := by
  simp only [consumeByte, normPhase]
  rw [if_pos h]
  cases fin <;> rfl

/-- Streaming part of a stored block: the core copies a proper front of the
block's literal bytes to the output and stays inside the block. -/
lemma mrun_data_front (crc : Nat) (fin : Bool) :
    ∀ (D : List Nat) (k a n : Nat), D.length < k → a < 4294967296 →
    mrun crc ⟨.blkData k fin, a, n⟩ D =
      .ok (⟨.blkData (k - D.length) fin, adlerFold a D, n + D.length⟩,
        D, []) := by
  intro D
  induction D with
  | nil =>
    intro k a n hk ha
    rw [mrun_nil]
    simp [adlerFold_nil a ha]
  | cons b D' ih =>
    intro k a n hk ha
    have hk1 : ¬ k ≤ 1 := by
      simp only [List.length_cons] at hk
      omega
    rw [mrun_cons crc _ _ b D' [b] (by simp)
      (consume_data_mid crc k fin a n b hk1)]
    rw [ih (k - 1) (adlerFold a [b]) (n + 1)
      (by simp only [List.length_cons] at hk ⊢; omega)
      (adlerFold_lt a [b] ha)]
    dsimp only
    rw [adlerFold_singleton_append]
    have h1 : k - 1 - D'.length = k - (b :: D').length := by
      simp only [List.length_cons]
      omega
    have h2 : n + 1 + D'.length = n + (b :: D').length := by
      simp only [List.length_cons]
      omega
    rw [h1, h2]
    rfl

/-- A full stored block's literal bytes: the core copies them all, folds
them into the engine checksum, and returns to the block-header collector
(for a non-final block) or the member epilogue (for a final one). -/
lemma mrun_data (crc : Nat) (fin : Bool) :
    ∀ (ch : List Nat) (a n : Nat) (rest : List Nat), ch ≠ [] →
    mrun crc ⟨.blkData ch.length fin, a, n⟩ (ch ++ rest) =
      (match mrun crc ⟨if fin then phaseAfterBlockSeq crc else .blkHdr [],
                       adlerFold a ch, n + ch.length⟩ rest with
       | .error err => .error err
       | .ok (e2, o2, r2) => .ok (e2, ch ++ o2, r2)) := by
  intro ch
  induction ch with
  | nil => intro a n rest h; exact absurd rfl h
  | cons b ch' ih =>
    intro a n rest _
    rw [List.cons_append]
    by_cases hch : ch' = []
    · subst hch
      rw [List.nil_append]
      rw [mrun_cons crc _ _ b rest [b] (by simp)
        (consume_data_last crc [b].length fin a n b (by simp))]
      rfl
    · rw [mrun_cons crc _ _ b (ch' ++ rest) [b] (by simp)
        (consume_data_mid crc (b :: ch').length fin a n b
          (by
            cases ch' with
            | nil => exact absurd rfl hch
            | cons c cs => simp only [List.length_cons]; omega))]
      have hlen : (b :: ch').length - 1 = ch'.length := rfl
      rw [hlen]
      rw [ih (adlerFold a [b]) (n + 1) rest hch]
      have h1 : adlerFold (adlerFold a [b]) ch' = adlerFold a (b :: ch') :=
        adlerFold_singleton_append a b ch'
      have h2 : n + 1 + ch'.length = n + (b :: ch').length := by
        simp only [List.length_cons]
        omega
      rw [h1, h2]
      cases hx : mrun crc
          ⟨if fin then phaseAfterBlockSeq crc else .blkHdr [],
           adlerFold a (b :: ch'), n + (b :: ch').length⟩ rest with
      | error err => rfl
      | ok v =>
        obtain ⟨e2, o2, r2⟩ := v
        simp

/-- A complete stored block followed by anything: the block's bytes stream
to the output and the core is back at the block-header collector. -/
lemma mrun_block (crc : Nat) (ch : List Nat) (a n : Nat) (rest : List Nat)
    (hne : ch ≠ []) :
    mrun crc ⟨.blkHdr [], a, n⟩ (blockBytes ch ++ rest) =
      (match mrun crc ⟨.blkHdr [], adlerFold a ch, n + ch.length⟩ rest with
       | .error err => .error err
       | .ok (e2, o2, r2) => .ok (e2, ch ++ o2, r2)) := by
  have hshape : blockBytes ch ++ rest =
      0 :: ch.length % 256 :: ch.length / 256 :: (ch ++ rest) := by
    simp [blockBytes]
  rw [hshape]
  rw [mrun_cons crc _ _ 0 _ [] (by simp) (consume_hdr_one crc a n 0)]
  rw [mrun_cons crc _ _ (ch.length % 256) _ [] (by simp)
    (consume_hdr_two crc a n 0 (ch.length % 256))]
  rw [mrun_cons crc _ _ (ch.length / 256) _ [] (by simp)
    (consume_hdr_third crc a n (ch.length % 256) (ch.length / 256)
      (by
        have h0 := Nat.mod_add_div ch.length 256
        cases ch with
        | nil => exact absurd rfl hne
        | cons c cs =>
          simp only [List.length_cons] at h0 ⊢
          omega))]
  have hlen : ch.length % 256 + 256 * (ch.length / 256) = ch.length :=
    Nat.mod_add_div ch.length 256
  rw [hlen]
  rw [mrun_data crc false ch a n rest hne]
  have hif : (if (false : Bool) then phaseAfterBlockSeq crc
      else (.blkHdr [] : IPhase)) = (.blkHdr [] : IPhase) := rfl
  rw [hif]
  cases hx : mrun crc ⟨.blkHdr [], adlerFold a ch, n + ch.length⟩ rest with
  | error err => rfl
  | ok v =>
    obtain ⟨e2, o2, r2⟩ := v
    simp

/-- The final empty block `[1, 0, 0]` hands the core to the per-mode member
epilogue without producing output. -/
lemma mrun_endseq (crc : Nat) (a n : Nat) (rest : List Nat) :
    mrun crc ⟨.blkHdr [], a, n⟩ ([1, 0, 0] ++ rest) =
      mrun crc ⟨phaseAfterBlockSeq crc, a, n⟩ rest := by
  rw [show ([1, 0, 0] ++ rest : List Nat) = 1 :: 0 :: 0 :: rest from rfl]
  rw [mrun_cons crc _ _ 1 _ [] (by simp) (consume_hdr_one crc a n 1)]
  rw [mrun_cons crc _ _ 0 _ [] (by simp) (consume_hdr_two crc a n 1 0)]
  rw [mrun_cons crc _ _ 0 _ [] (by simp) (consume_hdr_final crc a n)]
  cases hx : mrun crc ⟨phaseAfterBlockSeq crc, a, n⟩ rest with
  | error err => rfl
  | ok v =>
    obtain ⟨e2, o2, r2⟩ := v
    simp

/-- A whole member payload: every stored block streams to the output in
order, the checksum accumulator folds the content, and the core reaches the
member epilogue exactly at the final empty block. -/
lemma mrun_payload (crc : Nat) :
    ∀ (CH : List (List Nat)) (a n : Nat) (rest : List Nat),
    a < 4294967296 → (∀ ch ∈ CH, ch ≠ []) →
    mrun crc ⟨.blkHdr [], a, n⟩ (payloadBytes CH ++ rest) =
      (match mrun crc ⟨phaseAfterBlockSeq crc, adlerFold a CH.flatten,
                       n + CH.flatten.length⟩ rest with
       | .error err => .error err
       | .ok (e2, o2, r2) => .ok (e2, CH.flatten ++ o2, r2)) := by
  intro CH
  induction CH with
  | nil =>
    intro a n rest ha _
    simp only [payloadBytes, blocksBytes, List.map_nil, List.flatten_nil,
      List.nil_append, List.length_nil, Nat.add_zero]
    rw [mrun_endseq, adlerFold_nil a ha]
    cases hx : mrun crc ⟨phaseAfterBlockSeq crc, a, n⟩ rest with
    | error err => rfl
    | ok v =>
      obtain ⟨e2, o2, r2⟩ := v
      simp
  | cons ch CH' ih =>
    intro a n rest ha hv
    have hch : ch ≠ [] := hv ch (by simp)
    have hv' : ∀ c ∈ CH', c ≠ [] := fun c hc => hv c (by simp [hc])
    have hshape : payloadBytes (ch :: CH') ++ rest =
        blockBytes ch ++ (payloadBytes CH' ++ rest) := by
      simp [payloadBytes, blocksBytes, List.append_assoc]
    rw [hshape]
    rw [mrun_block crc ch a n _ hch]
    rw [ih (adlerFold a ch) (n + ch.length) rest (adlerFold_lt a ch ha) hv']
    have h1 : adlerFold (adlerFold a ch) CH'.flatten =
        adlerFold a ((ch :: CH').flatten) := by
      rw [List.flatten_cons, adlerFold_append]
    have h2 : n + ch.length + CH'.flatten.length =
        n + ((ch :: CH').flatten).length := by
      rw [List.flatten_cons]
      simp only [List.length_append]
      omega
    rw [h1, h2]
    cases hx : mrun crc ⟨phaseAfterBlockSeq crc,
        adlerFold a ((ch :: CH').flatten),
        n + ((ch :: CH').flatten).length⟩ rest with
    | error err => rfl
    | ok v =>
      obtain ⟨e2, o2, r2⟩ := v
      simp [List.flatten_cons, List.append_assoc]

lemma consume_slurp_mid (crc k a n b : Nat) (h : ¬ k ≤ 1) :
    consumeByte crc ⟨.slurp k, a, n⟩ b = .ok (⟨.slurp (k - 1), a, n⟩, []) := by
  simp only [consumeByte, normPhase]
  rw [if_neg h]

lemma consume_slurp_last (crc k a n b : Nat) (h : k ≤ 1) :
    consumeByte crc ⟨.slurp k, a, n⟩ b = .ok (⟨.finished, a, n⟩, []) := by
  simp only [consumeByte, normPhase]
  rw [if_pos h]

/-- The eager post-member slurp swallows any short byte run and stays inside
the epilogue. -/
lemma mrun_slurp_part (crc a n : Nat) :
    ∀ (t : List Nat) (k : Nat), t.length < k →
    mrun crc ⟨.slurp k, a, n⟩ t =
      .ok (⟨.slurp (k - t.length), a, n⟩, [], []) := by
  intro t
  induction t with
  | nil =>
    intro k _
    rw [mrun_nil]
    simp
  | cons b t' ih =>
    intro k hk
    have hk1 : ¬ k ≤ 1 := by
      simp only [List.length_cons] at hk
      omega
    rw [mrun_cons crc _ _ b t' [] (by simp) (consume_slurp_mid crc k a n b hk1)]
    rw [ih (k - 1) (by simp only [List.length_cons] at hk ⊢; omega)]
    have h1 : k - 1 - t'.length = k - (b :: t').length := by
      simp only [List.length_cons]
      omega
    rw [h1]
    rfl

/-- The slurp epilogue consumes exactly its byte budget and finishes. -/
lemma mrun_slurp_exact (crc a n : Nat) :
    ∀ (t : List Nat) (k : Nat), k ≠ 0 → t.length = k →
    mrun crc ⟨.slurp k, a, n⟩ t = .ok (⟨.finished, a, n⟩, [], []) := by
  intro t
  induction t with
  | nil =>
    intro k hk hlen
    simp only [List.length_nil] at hlen
    exact absurd hlen.symm hk
  | cons b t' ih =>
    intro k hk hlen
    by_cases ht : t' = []
    · subst ht
      simp only [List.length_cons, List.length_nil] at hlen
      rw [mrun_cons crc _ _ b [] [] (by simp)
        (consume_slurp_last crc k a n b (by omega))]
      rfl
    · have hk1 : ¬ k ≤ 1 := by
        cases t' with
        | nil => exact absurd rfl ht
        | cons c cs =>
          simp only [List.length_cons] at hlen
          omega
      rw [mrun_cons crc _ _ b t' [] (by simp)
        (consume_slurp_mid crc k a n b hk1)]
      rw [ih (k - 1) (by omega)
        (by simp only [List.length_cons] at hlen; omega)]
      rfl

lemma consume_gzt_mid (crc : Nat) (acc : List Nat) (b a n : Nat)
    (h : (acc ++ [b]).length ≠ 8) :
    consumeByte crc ⟨.gzTrailer acc, a, n⟩ b =
      .ok (⟨.gzTrailer (acc ++ [b]), a, n⟩, []) := by
  simp only [consumeByte, normPhase]
  rw [if_neg h]

lemma consume_gzt_last (crc : Nat) (acc : List Nat) (b a n : Nat)
    (hlen : (acc ++ [b]).length = 8)
    (heq : acc ++ [b] = gzipTrailerBytes a n) :
    consumeByte crc ⟨.gzTrailer acc, a, n⟩ b =
      .ok (⟨.finished, a, n⟩, []) := by
  simp only [consumeByte, normPhase]
  rw [if_pos hlen, if_pos heq]

/-- The engine-owned trailer of the self-checksummed mode: when the
remaining bytes complete exactly the trailer the core expects, it validates
them and finishes. -/
lemma mrun_gzTrailer (crc a n : Nat) :
    ∀ (rest acc : List Nat), acc ++ rest = gzipTrailerBytes a n →
    rest ≠ [] →
    mrun crc ⟨.gzTrailer acc, a, n⟩ rest = .ok (⟨.finished, a, n⟩, [], []) := by
  intro rest
  induction rest with
  | nil => intro acc _ h; exact absurd rfl h
  | cons b rest' ih =>
    intro acc hacc _
    have hlen8 : (gzipTrailerBytes a n).length = 8 := by
      simp [gzipTrailerBytes, le32Bytes]
    by_cases hr : rest' = []
    · subst hr
      rw [mrun_cons crc _ _ b [] [] (by simp)
        (consume_gzt_last crc acc b a n
          (by
            have hl := congrArg List.length hacc
            simp only [List.length_append, List.length_cons,
              List.length_nil] at hl
            simp only [List.length_append, List.length_cons, List.length_nil]
            omega)
          (by simpa using hacc))]
      rfl
    · rw [mrun_cons crc _ _ b rest' [] (by simp)
        (consume_gzt_mid crc acc b a n
          (by
            have hl := congrArg List.length hacc
            simp only [List.length_append, List.length_cons] at hl
            simp only [List.length_append, List.length_cons, List.length_nil]
            cases rest' with
            | nil => exact absurd rfl hr
            | cons c cs =>
              simp only [List.length_cons] at hl
              omega))]
      rw [ih (acc ++ [b])
        (by rw [List.append_assoc]; simpa using hacc) hr]
      rfl

/-- A run that consumed its input completely continues seamlessly over
appended bytes. -/
lemma mrun_append (crc : Nat) :
    ∀ (x : List Nat) (e e1 : EngCore) (o1 y : List Nat),
    mrun crc e x = .ok (e1, o1, []) →
    mrun crc e (x ++ y) =
      (match mrun crc e1 y with
       | .error err => .error err
       | .ok (e2, o2, r2) => .ok (e2, o1 ++ o2, r2)) := by
  intro x
  induction x with
  | nil =>
    intro e e1 o1 y h
    rw [mrun_nil] at h
    simp only [Except.ok.injEq, Prod.mk.injEq] at h
    obtain ⟨he, ho, -⟩ := h
    subst he
    subst ho
    rw [List.nil_append]
    cases hx : mrun crc e y with
    | error err => rfl
    | ok v =>
      obtain ⟨e2, o2, r2⟩ := v
      simp
  | cons b x' ih =>
    intro e e1 o1 y h
    have hf : e.phase ≠ .finished := by
      intro hfin
      rw [mrun_finished crc e _ hfin (by simp)] at h
      simp at h
    cases hc : consumeByte crc e b with
    | error err =>
      exfalso
      rw [mrun] at h
      simp only [mrunB] at h
      rw [if_neg hf] at h
      rw [if_neg (by rintro ⟨hz, _⟩; simp at hz)] at h
      rw [hc] at h
      simp at h
    | ok r =>
      obtain ⟨e', out⟩ := r
      rw [mrun_cons crc e e' b x' out hf hc] at h
      rw [List.cons_append]
      rw [mrun_cons crc e e' b (x' ++ y) out hf hc]
      cases hm : mrun crc e' x' with
      | error err => rw [hm] at h; simp at h
      | ok v =>
        obtain ⟨e1', o1', r1'⟩ := v
        rw [hm] at h
        dsimp only at h
        simp only [Except.ok.injEq, Prod.mk.injEq] at h
        obtain ⟨he1, ho1, hr1⟩ := h
        subst hr1
        subst he1
        rw [ih e' e1' o1' y hm]
        cases hy : mrun crc e1' y with
        | error err => rfl
        | ok v2 =>
          obtain ⟨e2, o2, r2⟩ := v2
          dsimp only
          rw [← ho1, List.append_assoc]

/-- Composing two complete runs over a concatenation. -/
lemma mrun_append_full (crc : Nat) (e e1 eF : EngCore)
    (x y o1 oF : List Nat)
    (hx : mrun crc e x = .ok (e1, o1, []))
    (hxy : mrun crc e (x ++ y) = .ok (eF, oF, [])) :
    ∃ o2, mrun crc e1 y = .ok (eF, o2, []) ∧ oF = o1 ++ o2 := by
  rw [mrun_append crc x e e1 o1 y hx] at hxy
  cases hm : mrun crc e1 y with
  | error err => rw [hm] at hxy; simp at hxy
  | ok v =>
    obtain ⟨e2, o2, r2⟩ := v
    rw [hm] at hxy
    dsimp only at hxy
    simp only [Except.ok.injEq, Prod.mk.injEq] at hxy
    obtain ⟨he, ho, hr⟩ := hxy
    refine ⟨o2, ?_, ho.symm⟩
    rw [he, hr]

/-- Running the core over any proper front of a member payload consumes it
completely and never reaches a member-finishing phase. -/
lemma mrun_payload_front (crc : Nat) :
    ∀ (CH : List (List Nat)) (x y : List Nat) (a n : Nat),
    a < 4294967296 → (∀ ch ∈ CH, ch ≠ []) →
    payloadBytes CH = x ++ y → y ≠ [] →
    ∃ e1 o1, mrun crc ⟨.blkHdr [], a, n⟩ x = .ok (e1, o1, []) ∧
      e1.phase.isFin = false := by
  intro CH
  induction CH with
  | nil =>
    intro x y a n ha _ hsplit hy
    simp only [payloadBytes, blocksBytes, List.map_nil, List.flatten_nil,
      List.nil_append] at hsplit
    cases x with
    | nil => exact ⟨⟨.blkHdr [], a, n⟩, [], mrun_nil crc _, rfl⟩
    | cons x0 xt =>
      cases xt with
      | nil =>
        simp only [List.cons_append, List.nil_append] at hsplit
        injection hsplit with h0 hrest
        subst h0
        exact ⟨⟨.blkHdr [1], a, n⟩, [], rfl, rfl⟩
      | cons x1 xtt =>
        cases xtt with
        | nil =>
          simp only [List.cons_append, List.nil_append] at hsplit
          injection hsplit with h0 hrest
          injection hrest with h1 hrest2
          subst h0
          subst h1
          exact ⟨⟨.blkHdr [1, 0], a, n⟩, [], rfl, rfl⟩
        | cons x2 xttt =>
          exfalso
          have hl := congrArg List.length hsplit
          simp only [List.length_cons, List.length_append,
            List.length_nil] at hl
          cases y with
          | nil => exact absurd rfl hy
          | cons c cs =>
            simp only [List.length_cons] at hl
            omega
  | cons ch CH' ih =>
    intro x y a n ha hv hsplit hy
    have hch0 : ch ≠ [] := hv ch (by simp)
    have hv' : ∀ c ∈ CH', c ≠ [] := fun c hc => hv c (by simp [hc])
    have hshape2 : payloadBytes (ch :: CH') =
        0 :: ch.length % 256 :: ch.length / 256 ::
          (ch ++ payloadBytes CH') := by
      simp [payloadBytes, blocksBytes, blockBytes, List.append_assoc]
    rw [hshape2] at hsplit
    cases x with
    | nil => exact ⟨⟨.blkHdr [], a, n⟩, [], mrun_nil crc _, rfl⟩
    | cons x0 xt =>
      cases xt with
      | nil =>
        simp only [List.cons_append, List.nil_append] at hsplit
        injection hsplit with h0 hrest
        subst h0
        exact ⟨⟨.blkHdr [0], a, n⟩, [], rfl, rfl⟩
      | cons x1 xtt =>
        cases xtt with
        | nil =>
          simp only [List.cons_append, List.nil_append] at hsplit
          injection hsplit with h0 hrest
          injection hrest with h1 hrest2
          subst h0
          subst h1
          exact ⟨⟨.blkHdr [0, ch.length % 256], a, n⟩, [], rfl, rfl⟩
        | cons x2 x' =>
          simp only [List.cons_append] at hsplit
          injection hsplit with h0 hrest
          injection hrest with h1 hrest2
          injection hrest2 with h2 hrest3
          subst h0
          subst h1
          subst h2
          rcases List.append_eq_append_iff.mp hrest3.symm with
            ⟨t, hcht, hyt⟩ | ⟨c', hxc, hpay⟩
          · by_cases ht : t = []
            · subst ht
              rw [List.append_nil] at hcht
              subst hcht
              refine ⟨⟨.blkHdr [], adlerFold a ch, n + ch.length⟩, ch, ?_, rfl⟩
              have hxs : (0 : Nat) :: ch.length % 256 :: ch.length / 256 ::
                  ch = blockBytes ch ++ [] := by
                simp [blockBytes]
              rw [hxs]
              rw [mrun_block crc ch a n [] hch0]
              rw [mrun_nil]
              simp
            · have hlt : x'.length < ch.length := by
                rw [hcht]
                simp only [List.length_append]
                cases t with
                | nil => exact absurd rfl ht
                | cons c cs => simp only [List.length_cons]; omega
              refine ⟨⟨.blkData (ch.length - x'.length) false,
                adlerFold a x', n + x'.length⟩, x', ?_, rfl⟩
              rw [mrun_cons crc _ _ 0 _ [] (by simp)
                (consume_hdr_one crc a n 0)]
              rw [mrun_cons crc _ _ (ch.length % 256) _ [] (by simp)
                (consume_hdr_two crc a n 0 (ch.length % 256))]
              rw [mrun_cons crc _ _ (ch.length / 256) _ [] (by simp)
                (consume_hdr_third crc a n (ch.length % 256)
                  (ch.length / 256)
                  (by
                    have h0 := Nat.mod_add_div ch.length 256
                    cases ch with
                    | nil => exact absurd rfl hch0
                    | cons c cs =>
                      simp only [List.length_cons] at h0 ⊢
                      omega))]
              have hmoddiv : ch.length % 256 + 256 * (ch.length / 256) =
                  ch.length := Nat.mod_add_div ch.length 256
              rw [hmoddiv]
              rw [mrun_data_front crc false x' ch.length a n hlt ha]
              simp
          · subst hxc
            obtain ⟨e1, o1, hrun, hfin⟩ := ih c' y (adlerFold a ch)
              (n + ch.length) (adlerFold_lt a ch ha) hv' hpay hy
            refine ⟨e1, ch ++ o1, ?_, hfin⟩
            have hxs : (0 : Nat) :: ch.length % 256 :: ch.length / 256 ::
                (ch ++ c') = blockBytes ch ++ c' := by
              simp [blockBytes]
            rw [hxs]
            rw [mrun_block crc ch a n c' hch0]
            rw [hrun]

/-- The payload of a valid member admits no early member finish, from the
block-header collector. -/
lemma noEarlyFin_payload (crc : Nat) (CH : List (List Nat)) (a n : Nat)
    (ha : a < 4294967296) (hv : ∀ ch ∈ CH, ch ≠ []) :
    NoEarlyFin crc ⟨.blkHdr [], a, n⟩ (payloadBytes CH) := by
  intro x y hsplit hy
  exact mrun_payload_front crc CH x y a n ha hv hsplit hy

/-- The payload of a valid member admits no early member finish, from the
fresh member-start core. -/
lemma noEarlyFin_fresh (crc : Nat) (CH : List (List Nat))
    (hv : ∀ ch ∈ CH, ch ≠ []) :
    NoEarlyFin crc freshCore (payloadBytes CH) := by
  intro x y hsplit hy
  cases x with
  | nil => exact ⟨freshCore, [], mrun_nil crc _, rfl⟩
  | cons b x' =>
    obtain ⟨e1, o1, hrun, hfin⟩ := mrun_payload_front crc CH (b :: x') y 1 0
      (by norm_num) hv hsplit hy
    refine ⟨e1, o1, ?_, hfin⟩
    rw [show mrun crc freshCore (b :: x') =
      mrun crc ⟨.blkHdr [], 1, 0⟩ (b :: x') from mrun_fresh crc 1 0 b x']
    exact hrun

/-- Feeding the core one complete slice keeps the no-early-finish property
for the remaining bytes. -/
lemma noEarlyFin_step (crc : Nat) (e e1 : EngCore) (x y o1 : List Nat)
    (hne : NoEarlyFin crc e (x ++ y))
    (hx : mrun crc e x = .ok (e1, o1, [])) :
    NoEarlyFin crc e1 y := by
  intro x' y' hsplit hy'
  obtain ⟨e2, o2, hrun2, hfin2⟩ := hne (x ++ x') y'
    (by rw [hsplit, List.append_assoc]) hy'
  rw [mrun_append crc x e e1 o1 x' hx] at hrun2
  cases hm : mrun crc e1 x' with
  | error err => rw [hm] at hrun2; simp at hrun2
  | ok v =>
    obtain ⟨e3, o3, r3⟩ := v
    rw [hm] at hrun2
    dsimp only at hrun2
    simp only [Except.ok.injEq, Prod.mk.injEq] at hrun2
    obtain ⟨h3, -, hr3⟩ := hrun2
    refine ⟨e3, o3, ?_, ?_⟩
    · rw [hr3]
    · rw [h3]
      exact hfin2

/-! ## Adapter writes, chunk by chunk -/

/-- When the member-header branch succeeds and leaves a nonempty window
away from `NEW_HDR`, the outer loop continues exactly as if it had been
started on the post-header state. -/
lemma outerLoop_hdr_skip (codec : Codec) (fuel : Nat) (z z1 : InflateState)
    (acc : List Nat) (h0 : z.avail_in ≠ 0) (hbs : z.block_state = .NEW_HDR)
    (hbr : Decoder.newHdrBranch codec z = .ok z1)
    (h10 : z1.avail_in ≠ 0) (h1bs : z1.block_state ≠ .NEW_HDR) :
    Decoder.outerLoop codec (fuel + 1) z acc =
      Decoder.outerLoop codec (fuel + 1) z1 acc := by
  simp only [Decoder.outerLoop]
  rw [if_neg h0, if_neg h10, if_pos hbs, if_neg h1bs, hbr]

/-- An empty chunk: `Decoder::write` performs no engine work, clears the
staging cursors and hands nothing to the sink. -/
lemma decoder_write_nil (d : Decoder) :
    d.write [] = .ok
      ({ d with
          zst := { d.zst with inBuf := [], pos := 0, avail_in := 0 },
          inner := d.inner.write_all [],
          out_buf := [], dsts := 0, dste := 0 }, 0) := by
  simp only [Decoder.write, List.length_nil]
  rw [outerLoop_avail0 d.codec (2 * 0 + 2) _ [] rfl]
  dsimp only
  rw [if_neg (by simp)]
  simp only [Decoder.write_from_out_buf]
  simp [Sink.write_all]

/-- A raw-framing chunk the engine consumes without finishing the member:
`Decoder::write` streams the decoded bytes to the sink and parks the engine
mid-member. -/
lemma write_deflate_chunk_mid (d : Decoder) (c : List Nat) (cf : EngCore)
    (outs : List Nat) (hcodec : d.codec = .Deflate)
    (hcrc : d.zst.crc_flag = 0) (hcne : c ≠ [])
    (hm : mrun 0 d.zst.core c = .ok (cf, outs, []))
    (hfin : cf.phase.isFin = false) :
    d.write c = .ok
      ({ d with
          zst := { d.zst with
                    inBuf := c,
                    pos := c.length,
                    avail_in := 0,
                    block_state := .CODED,
                    core := cf },
          inner := d.inner.write_all outs,
          out_buf := [], dsts := 0, dste := 0 }, c.length) := by
  have hwin : ({ d.zst with inBuf := c, pos := 0, avail_in := c.length } :
      InflateState).window = c := by
    simp [InflateState.window]
  have hm' : mrun
      ({ d.zst with inBuf := c, pos := 0, avail_in := c.length } :
        InflateState).crc_flag
      ({ d.zst with inBuf := c, pos := 0, avail_in := c.length } :
        InflateState).core
      ({ d.zst with inBuf := c, pos := 0, avail_in := c.length } :
        InflateState).window = .ok (cf, outs, []) := by
    rw [hwin]
    dsimp only
    rw [hcrc]
    exact hm
  simp only [Decoder.write]
  rw [hcodec]
  rw [outerLoop_dz .Deflate (Or.inl rfl) (2 * c.length + 2)
    { d.zst with inBuf := c, pos := 0, avail_in := c.length } [] cf outs
    (by unfold wfIn; simp)
    (by dsimp only; omega)
    (by dsimp only; simpa using hcne)
    (by intro h; simp at h)
    hm']
  simp only [hfin, Bool.false_eq_true, if_false]
  rw [if_neg (by simp)]
  simp only [Decoder.write_from_out_buf]
  simp only [List.nil_append, List.drop_zero, List.take_length]
  simp [Nat.zero_add, Nat.sub_self]

/-- A raw-framing chunk that finishes the member exactly at its end:
`Decoder::write` streams the decoded bytes and structurally resets the
engine to the next member boundary. -/
lemma write_deflate_chunk_fin (d : Decoder) (c : List Nat) (cf : EngCore)
    (outs : List Nat) (hcodec : d.codec = .Deflate)
    (hcrc : d.zst.crc_flag = 0) (hcne : c ≠ [])
    (hm : mrun 0 d.zst.core c = .ok (cf, outs, []))
    (hfin : cf.phase.isFin = true) :
    d.write c = .ok
      ({ d with
          zst := { d.zst with
                    inBuf := c,
                    pos := c.length,
                    avail_in := 0,
                    block_state := .NEW_HDR,
                    core := freshCore },
          inner := d.inner.write_all outs,
          out_buf := [], dsts := 0, dste := 0 }, c.length) := by
  have hwin : ({ d.zst with inBuf := c, pos := 0, avail_in := c.length } :
      InflateState).window = c := by
    simp [InflateState.window]
  have hm' : mrun
      ({ d.zst with inBuf := c, pos := 0, avail_in := c.length } :
        InflateState).crc_flag
      ({ d.zst with inBuf := c, pos := 0, avail_in := c.length } :
        InflateState).core
      ({ d.zst with inBuf := c, pos := 0, avail_in := c.length } :
        InflateState).window = .ok (cf, outs, []) := by
    rw [hwin]
    dsimp only
    rw [hcrc]
    exact hm
  simp only [Decoder.write]
  rw [hcodec]
  rw [outerLoop_dz .Deflate (Or.inl rfl) (2 * c.length + 2)
    { d.zst with inBuf := c, pos := 0, avail_in := c.length } [] cf outs
    (by unfold wfIn; simp)
    (by dsimp only; omega)
    (by dsimp only; simpa using hcne)
    (by intro h; simp at h)
    hm']
  simp only [hfin, if_true]
  rw [if_neg (by simp)]
  simp only [Decoder.write_from_out_buf]
  simp only [List.nil_append, List.drop_zero, List.take_length]
  simp [Nat.zero_add, Nat.sub_self]

/-- Feeding only empty chunks moves nothing through the adapter. -/
lemma writeChunks_empty :
    ∀ (parts : List (List Nat)) (d : Decoder), (∀ p ∈ parts, p = []) →
    ∃ d', d.writeChunks parts = .ok d' ∧
      d'.inner.data = d.inner.data ∧
      d'.codec = d.codec ∧ d'.zst.crc_flag = d.zst.crc_flag ∧
      d'.zst.core = d.zst.core ∧ d'.zst.block_state = d.zst.block_state := by
  intro parts
  induction parts with
  | nil => intro d _; exact ⟨d, rfl, rfl, rfl, rfl, rfl, rfl⟩
  | cons p ps ih =>
    intro d hp
    have hp0 : p = [] := hp p (by simp)
    subst hp0
    obtain ⟨d', hw, hdata, hcod, hcrc, hcore, hbs⟩ :=
      ih ({ d with
              zst := { d.zst with inBuf := [], pos := 0, avail_in := 0 },
              inner := d.inner.write_all [],
              out_buf := [], dsts := 0, dste := 0 })
        (fun q hq => hp q (by simp [hq]))
    refine ⟨d', ?_, ?_, ?_, ?_, ?_, ?_⟩
    · simp only [Decoder.writeChunks]
      rw [decoder_write_nil d]
      exact hw
    · rw [hdata]
      simp [Sink.write_all]
    · rw [hcod]
    · rw [hcrc]
    · rw [hcore]
    · rw [hbs]

/-- Feeding any chunking of a complete raw-framing member stream through
consecutive `Decoder::write` calls produces exactly the decoded bytes at
the sink. -/
lemma writeChunks_deflate :
    ∀ (parts : List (List Nat)) (d : Decoder) (eF : EngCore)
      (outs : List Nat),
    d.codec = .Deflate → d.zst.crc_flag = 0 →
    parts.flatten ≠ [] →
    mrun 0 d.zst.core parts.flatten = .ok (eF, outs, []) →
    eF.phase.isFin = true →
    NoEarlyFin 0 d.zst.core parts.flatten →
    ∃ d', d.writeChunks parts = .ok d' ∧
      d'.inner.data = d.inner.data ++ outs := by
  intro parts
  induction parts with
  | nil => intro d eF outs _ _ hne _ _ _; simp at hne
  | cons c cs ih =>
    intro d eF outs hcodec hcrc hne hm hfin hnef
    rw [List.flatten_cons] at hm hnef hne
    by_cases hc : c = []
    · subst hc
      rw [List.nil_append] at hm hnef hne
      obtain ⟨d', hw, hdata⟩ :=
        ih ({ d with
                zst := { d.zst with inBuf := [], pos := 0, avail_in := 0 },
                inner := d.inner.write_all [],
                out_buf := [], dsts := 0, dste := 0 })
          eF outs hcodec hcrc hne hm hfin hnef
      refine ⟨d', ?_, ?_⟩
      · simp only [Decoder.writeChunks]
        rw [decoder_write_nil d]
        exact hw
      · rw [hdata]
        simp [Sink.write_all]
    · by_cases hcs : cs.flatten = []
      · rw [hcs, List.append_nil] at hm hnef hne
        have hwc := write_deflate_chunk_fin d c eF outs hcodec hcrc hc hm hfin
        have hall : ∀ p ∈ cs, p = [] := by
          intro p hp
          have := List.flatten_eq_nil_iff.mp hcs
          exact this p hp
        obtain ⟨d', hw, hdata, -, -, -, -⟩ := writeChunks_empty cs
          ({ d with
              zst := { d.zst with
                        inBuf := c,
                        pos := c.length,
                        avail_in := 0,
                        block_state := .NEW_HDR,
                        core := freshCore },
              inner := d.inner.write_all outs,
              out_buf := [], dsts := 0, dste := 0 }) hall
        refine ⟨d', ?_, ?_⟩
        · simp only [Decoder.writeChunks]
          rw [hwc]
          exact hw
        · rw [hdata]
          simp [Sink.write_all]
      · obtain ⟨e1, o1, hrun1, hfin1⟩ := hnef c cs.flatten rfl hcs
        have hwc := write_deflate_chunk_mid d c e1 o1 hcodec hcrc hc
          hrun1 hfin1
        obtain ⟨o2, hrun2, ho⟩ := mrun_append_full 0 d.zst.core e1 eF c
          cs.flatten o1 outs hrun1 hm
        have hnef2 : NoEarlyFin 0 e1 cs.flatten :=
          noEarlyFin_step 0 d.zst.core e1 c cs.flatten o1 hnef hrun1
        obtain ⟨d', hw, hdata⟩ :=
          ih ({ d with
                  zst := { d.zst with
                            inBuf := c,
                            pos := c.length,
                            avail_in := 0,
                            block_state := .CODED,
                            core := e1 },
                  inner := d.inner.write_all o1,
                  out_buf := [], dsts := 0, dste := 0 })
            eF o2 hcodec hcrc hcs hrun2 hfin hnef2
      -- the recursive call starts from the post-chunk adapter state
        refine ⟨d', ?_, ?_⟩
        · simp only [Decoder.writeChunks]
          rw [hwc]
          exact hw
        · rw [hdata, ho]
          simp [Sink.write_all, List.append_assoc]

/-- The full run over a member payload from a fresh core, in an
engine-checksum-free mode: the content streams out and the core parks in
the eager post-member slurp. -/
lemma mrun_payload_full (crc : Nat) (CH : List (List Nat))
    (hv : ∀ ch ∈ CH, ch ≠ []) (hcrc1 : crc ≠ 1) :
    mrun crc ⟨.blkHdr [], 1, 0⟩ (payloadBytes CH) =
      .ok (⟨.slurp 4, adlerFold 1 CH.flatten, CH.flatten.length⟩,
        CH.flatten, []) := by
  rw [← List.append_nil (payloadBytes CH)]
  rw [mrun_payload crc CH 1 0 [] (by norm_num) hv]
  rw [show phaseAfterBlockSeq crc = .slurp 4 from by
    simp [phaseAfterBlockSeq, hcrc1]]
  rw [mrun_nil]
  simp

/-- Same full payload run, from the fresh member-start core. -/
lemma mrun_payload_full_fresh (crc : Nat) (CH : List (List Nat))
    (hv : ∀ ch ∈ CH, ch ≠ []) (hcrc1 : crc ≠ 1) :
    mrun crc freshCore (payloadBytes CH) =
      .ok (⟨.slurp 4, adlerFold 1 CH.flatten, CH.flatten.length⟩,
        CH.flatten, []) := by
  have hsh : payloadBytes CH =
      blocksBytes CH ++ [1, 0, 0] := rfl
  cases hq : blocksBytes CH ++ ([1, 0, 0] : List Nat) with
  | nil => exact absurd (congrArg List.length hq) (by simp)
  | cons b q =>
    rw [hsh, hq]
    rw [show mrun crc freshCore (b :: q) =
      mrun crc ⟨.blkHdr [], 1, 0⟩ (b :: q) from mrun_fresh crc 1 0 b q]
    rw [← hq, ← hsh]
    exact mrun_payload_full crc CH hv hcrc1

/-- Chunked decompression of a single chunk is plain decompression. -/
lemma decompressChunks_single (codec : Codec) (blob : List Nat) :
    decompressChunks codec [blob] = decompressBytes codec blob := by
  simp only [decompressChunks, decompressBytes, Decoder.writeChunks]
  cases h : (Decoder.new emptySink codec).write blob with
  | error e => rfl
  | ok r => rfl

/-- Any chunking of a raw-framing compressed stream decodes to the original
bytes. -/
lemma decompressChunks_deflate (S : List Nat) (parts : List (List Nat))
    (hflat : parts.flatten = compressBytes .Deflate S) :
    decompressChunks .Deflate parts = .ok S := by
  obtain ⟨CH, hCH, hvalid, hblob⟩ := compressBytes_spec .Deflate S
  have hv : ∀ ch ∈ CH, ch ≠ [] := fun ch h => (hvalid ch h).1
  have hmem : compressBytes .Deflate S = payloadBytes CH := by
    rw [hblob]
    simp [memberBytes, hdrBytes, trailerBytes]
  rw [hmem] at hflat
  have hne : payloadBytes CH ≠ [] := by
    intro h
    have := congrArg List.length h
    simp [payloadBytes] at this
  obtain ⟨d', hw, hdata⟩ := writeChunks_deflate parts
    (Decoder.new emptySink .Deflate)
    ⟨.slurp 4, adlerFold 1 CH.flatten, CH.flatten.length⟩ CH.flatten
    rfl rfl
    (by rw [hflat]; exact hne)
    (by rw [hflat]; exact mrun_payload_full_fresh 0 CH hv (by norm_num))
    rfl
    (by rw [hflat]; exact noEarlyFin_fresh 0 CH hv)
  simp only [decompressChunks]
  rw [hw]
  dsimp only
  rw [hdata, hCH]
  simp [Decoder.new, emptySink]

/-- Driving the outer decode loop over one complete additive-checksum
member plus its 4 trailer bytes: the header branch consumes the 2-byte
container header (forcing `crc_flag` to 0 and parking the cursor at chunk
offset 2), the inner pass decodes the payload, the eager slurp swallows the
trailer bytes, and the finished member is structurally reset. -/
lemma outerLoop_zlib_blob (CH : List (List Nat)) (t : List Nat)
    (hv : ∀ ch ∈ CH, ch ≠ []) (ht : t.length = 4) :
    Decoder.outerLoop .Zlib
      (2 * (zlibHdr ++ (payloadBytes CH ++ t)).length + 2)
      ⟨zlibHdr ++ (payloadBytes CH ++ t), 0,
        (zlibHdr ++ (payloadBytes CH ++ t)).length, .NEW_HDR, 3, freshCore⟩
      [] =
      .ok (⟨zlibHdr ++ (payloadBytes CH ++ t),
            2 + ((zlibHdr ++ (payloadBytes CH ++ t)).length - 2), 0,
            .NEW_HDR, 0, freshCore⟩, CH.flatten) := by
  set P := payloadBytes CH with hPdef
  set B := zlibHdr ++ (P ++ t) with hBdef
  have hBcons : B = 120 :: 156 :: (P ++ t) := by
    rw [hBdef]
    simp [zlibHdr]
  have hBlen : B.length = (P ++ t).length + 2 := by
    rw [hBcons]
    simp
  obtain ⟨f, hf⟩ : ∃ f, 2 * B.length + 2 = f + 1 :=
    ⟨2 * B.length + 1, by omega⟩
  rw [hf]
  have hbranch : Decoder.newHdrBranch .Zlib
      (⟨B, 0, B.length, .NEW_HDR, 3, freshCore⟩ : InflateState) =
      .ok ⟨B, 2, B.length - 2, .NEW_HDR, 0, ⟨.blkHdr [], 1, 0⟩⟩ := by
    simp only [Decoder.newHdrBranch, read_zlib_header]
    rw [show ((⟨B, 0, B.length, .NEW_HDR, 0, freshCore⟩ :
        InflateState).inBuf.drop 0).take 2 = [120, 156] from by
      rw [show (⟨B, 0, B.length, .NEW_HDR, 0, freshCore⟩ :
        InflateState).inBuf = B from rfl]
      rw [hBcons]
      rfl]
    dsimp only
    rw [if_neg (by
      show ¬ B.length < 2
      omega)]
    rw [if_pos (by norm_num)]
    rfl
  simp only [Decoder.outerLoop]
  rw [if_neg (by
    show ¬ B.length = 0
    omega)]
  simp only [hbranch]
  rw [if_pos trivial]
  dsimp only
  have hwin1 : (⟨B, 2, B.length - 2, .NEW_HDR, 0,
      (⟨.blkHdr [], 1, 0⟩ : EngCore)⟩ : InflateState).window = P ++ t := by
    show (B.drop 2).take (B.length - 2) = P ++ t
    rw [hBcons]
    simp only [List.drop_succ_cons, List.drop_zero]
    rw [show (120 :: 156 :: (P ++ t) : List Nat).length - 2 =
      (P ++ t).length from by simp]
    simp
  have hrun : mrun 0 ⟨.blkHdr [], 1, 0⟩ (P ++ t) =
      .ok (⟨.finished, adlerFold 1 CH.flatten, CH.flatten.length⟩,
        CH.flatten, []) := by
    rw [hPdef]
    rw [mrun_payload 0 CH 1 0 t (by norm_num) hv]
    rw [show phaseAfterBlockSeq 0 = .slurp 4 from rfl]
    rw [mrun_slurp_exact 0 (adlerFold 1 CH.flatten)
      (0 + CH.flatten.length) t 4 (by norm_num) ht]
    simp
  rw [innerLoop_dz .Zlib (Or.inr rfl)
    ((⟨B, 2, B.length - 2, .NEW_HDR, 0, ⟨.blkHdr [], 1, 0⟩⟩ :
      InflateState).avail_in + 1)
    ⟨B, 2, B.length - 2, .NEW_HDR, 0, ⟨.blkHdr [], 1, 0⟩⟩ []
    ⟨.finished, adlerFold 1 CH.flatten, CH.flatten.length⟩ CH.flatten
    (by
      show 2 + (B.length - 2) ≤ B.length
      omega)
    le_rfl
    (by
      rw [hwin1]
      exact hrun)]
  rw [if_pos (by rfl)]
  dsimp only [InflateState.reset]
  rw [outerLoop_avail0 .Zlib f _ _ rfl]
  simp

/-- Decompressing one complete additive-checksum member whose 4 trailer
bytes are `t`: the payload decodes and the adapter's own checksum
comparison against the big-endian value of `t` decides between success and
the checksum-mismatch error. -/
lemma decompress_zlib_blob (CH : List (List Nat)) (t : List Nat)
    (hv : ∀ ch ∈ CH, ch ≠ []) (ht : t.length = 4) :
    decompressBytes .Zlib (zlibHdr ++ (payloadBytes CH ++ t)) =
      if adlerFold 1 CH.flatten = be32 t then .ok CH.flatten
      else .error .IncorrectChecksum := by
  have hPlen3 : 3 ≤ (payloadBytes CH).length := by
    simp only [payloadBytes, List.length_append, List.length_cons,
      List.length_nil]
    omega
  have hBlen : (zlibHdr ++ (payloadBytes CH ++ t)).length =
      (payloadBytes CH).length + 6 := by
    simp only [List.length_append, List.length_cons, List.length_nil,
      ht, zlibHdr]
    omega
  have hdrop : (zlibHdr ++ (payloadBytes CH ++ t)).drop
      ((zlibHdr ++ (payloadBytes CH ++ t)).length - 4) = t := by
    rw [show zlibHdr ++ (payloadBytes CH ++ t) =
      (zlibHdr ++ payloadBytes CH) ++ t from by rw [List.append_assoc]]
    rw [show ((zlibHdr ++ payloadBytes CH) ++ t).length - 4 =
      (zlibHdr ++ payloadBytes CH).length from by
        simp only [List.length_append, ht]
        omega]
    exact List.drop_left _ _
  simp only [decompressBytes, Decoder.write, Decoder.new,
    InflateState.new0, crcFlag]
  rw [outerLoop_zlib_blob CH t hv ht]
  dsimp only
  rw [if_pos (show True ∧
      (zlibHdr ++ (payloadBytes CH ++ t)).length > 4 from
    ⟨trivial, by omega⟩)]
  rw [hdrop]
  by_cases hcmp : adlerFold 1 CH.flatten = be32 t
  · rw [if_neg (by
      rintro ⟨-, -, -, hne⟩
      exact hne hcmp)]
    rw [if_pos hcmp]
    simp [Decoder.write_from_out_buf, Sink.write_all, emptySink]
  · rw [if_pos ⟨trivial, by omega, rfl, hcmp⟩]
    rw [if_neg hcmp]


/-- Driving the outer decode loop over one complete self-checksummed
member: the header branch hands the 10-byte member header to the engine's
parser, the loop then iterates the engine over payload and engine-owned
trailer, and the finished member is structurally reset. -/
lemma outerLoop_gzip_blob (CH : List (List Nat)) (B : List Nat)
    (hv : ∀ ch ∈ CH, ch ≠ [])
    (hB : B = gzipHdr ++ (payloadBytes CH ++
      gzipTrailerBytes (adlerFold 1 CH.flatten) CH.flatten.length)) :
    Decoder.outerLoop .Gzip (2 * B.length + 2)
      ⟨B, 0, B.length, .NEW_HDR, 1, freshCore⟩ [] =
      .ok (⟨B, 10 + (B.length - 10), 0, .NEW_HDR, 1, freshCore⟩,
        CH.flatten) := by
  have hPlen3 : 3 ≤ (payloadBytes CH).length := by
    simp only [payloadBytes, List.length_append, List.length_cons,
      List.length_nil]
    omega
  have hTlen : (gzipTrailerBytes (adlerFold 1 CH.flatten)
      CH.flatten.length).length = 8 := by
    simp [gzipTrailerBytes, le32Bytes]
  have hBlen : B.length = (payloadBytes CH).length + 18 := by
    rw [hB]
    simp only [List.length_append, hTlen, gzipHdr, List.length_cons,
      List.length_nil]
    omega
  have hbr : Decoder.newHdrBranch .Gzip
      (⟨B, 0, B.length, .NEW_HDR, 1, freshCore⟩ : InflateState) =
      .ok ⟨B, 10, B.length - 10, .HDR, 1, ⟨.blkHdr [], 1, 0⟩⟩ := by
    simp only [Decoder.newHdrBranch, read_gzip_header]
    rw [if_neg (by
      show ¬ B.length < gzipHdr.length
      simp only [gzipHdr, List.length_cons, List.length_nil]
      omega)]
    rw [if_neg (show ¬ (((⟨B, 0, B.length, .NEW_HDR, 1, freshCore⟩ :
        InflateState).inBuf.drop 0).take gzipHdr.length ≠ gzipHdr) from by
      intro hne
      apply hne
      show (B.drop 0).take gzipHdr.length = gzipHdr
      rw [List.drop_zero, hB, List.take_left])]
    rfl
  have hwin1 : (⟨B, 10, B.length - 10, .HDR, 1,
      (⟨.blkHdr [], 1, 0⟩ : EngCore)⟩ : InflateState).window =
      payloadBytes CH ++
        gzipTrailerBytes (adlerFold 1 CH.flatten) CH.flatten.length := by
    show (B.drop 10).take (B.length - 10) = _
    rw [hB]
    rw [show (gzipHdr ++ (payloadBytes CH ++
        gzipTrailerBytes (adlerFold 1 CH.flatten)
          CH.flatten.length)).length - 10 =
      (payloadBytes CH ++
        gzipTrailerBytes (adlerFold 1 CH.flatten)
          CH.flatten.length).length from by
        simp only [List.length_append, gzipHdr, List.length_cons,
          List.length_nil]
        omega]
    rw [show (gzipHdr ++ (payloadBytes CH ++
        gzipTrailerBytes (adlerFold 1 CH.flatten)
          CH.flatten.length)).drop 10 =
      payloadBytes CH ++
        gzipTrailerBytes (adlerFold 1 CH.flatten) CH.flatten.length from
      List.drop_left gzipHdr _]
    simp
  have hTne : gzipTrailerBytes (adlerFold 1 CH.flatten)
      CH.flatten.length ≠ [] := by
    intro h
    rw [h] at hTlen
    simp at hTlen
  have hrun : mrun 1 ⟨.blkHdr [], 1, 0⟩
      (payloadBytes CH ++
        gzipTrailerBytes (adlerFold 1 CH.flatten) CH.flatten.length) =
      .ok (⟨.finished, adlerFold 1 CH.flatten, 0 + CH.flatten.length⟩,
        CH.flatten, []) := by
    rw [mrun_payload 1 CH 1 0 _ (by norm_num) hv]
    rw [show phaseAfterBlockSeq 1 = .gzTrailer [] from rfl]
    rw [mrun_gzTrailer 1 (adlerFold 1 CH.flatten) (0 + CH.flatten.length)
      (gzipTrailerBytes (adlerFold 1 CH.flatten) CH.flatten.length) []
      (by simp) hTne]
    simp
  obtain ⟨f, hf⟩ : ∃ f, 2 * B.length + 2 = f + 1 :=
    ⟨2 * B.length + 1, by omega⟩
  rw [hf]
  rw [outerLoop_hdr_skip .Gzip f
    ⟨B, 0, B.length, .NEW_HDR, 1, freshCore⟩
    ⟨B, 10, B.length - 10, .HDR, 1, ⟨.blkHdr [], 1, 0⟩⟩ []
    (by show B.length ≠ 0; omega)
    rfl
    hbr
    (by show B.length - 10 ≠ 0; omega)
    (by simp)]
  rw [outerLoop_gzip_mid (f + 1)
    ⟨B, 10, B.length - 10, .HDR, 1, ⟨.blkHdr [], 1, 0⟩⟩ []
    ⟨.finished, adlerFold 1 CH.flatten, 0 + CH.flatten.length⟩
    CH.flatten
    (by show 10 + (B.length - 10) ≤ B.length; omega)
    (by show B.length - 10 + 1 ≤ f + 1; omega)
    (by show B.length - 10 ≠ 0; omega)
    (by simp)
    (by rw [hwin1]; exact hrun)
    rfl]
  simp

/-- Decompressing one complete self-checksummed member recovers exactly its
content. -/
lemma decompress_gzip_blob (CH : List (List Nat))
    (hv : ∀ ch ∈ CH, ch ≠ []) :
    decompressBytes .Gzip
      (gzipHdr ++ (payloadBytes CH ++
        gzipTrailerBytes (adlerFold 1 CH.flatten) CH.flatten.length)) =
      .ok CH.flatten := by
  simp only [decompressBytes, Decoder.write, Decoder.new,
    InflateState.new0, crcFlag]
  rw [outerLoop_gzip_blob CH _ hv rfl]
  dsimp only
  simp [Decoder.write_from_out_buf, Sink.write_all, emptySink]

/-! ## The claims -/

/-- C1: for every byte sequence `S` and each of the three formats, a
streaming-Encoder compression of `S` (write then flush) followed by a
streaming-Decoder decompression of the resulting bytes yields exactly
`S`. -/
theorem C1_roundtrip (codec : Codec) (S : List Nat) :
    decompressBytes codec (compressBytes codec S) = .ok S := by
  obtain ⟨CH, hCH, hvalid, hblob⟩ := compressBytes_spec codec S
  have hv : ∀ ch ∈ CH, ch ≠ [] := fun ch h => (hvalid ch h).1
  cases codec with
  | Deflate =>
    rw [← decompressChunks_single]
    exact decompressChunks_deflate S [compressBytes .Deflate S] (by simp)
  | Zlib =>
    rw [hblob]
    rw [show memberBytes .Zlib CH = zlibHdr ++
      (payloadBytes CH ++ be32Bytes (adlerFold 1 CH.flatten)) from by
        simp [memberBytes, hdrBytes, trailerBytes, List.append_assoc]]
    rw [decompress_zlib_blob CH _ hv (by simp [be32Bytes])]
    rw [if_pos (by
      rw [be32_be32Bytes _ (adlerFold_lt 1 CH.flatten (by norm_num))])]
    rw [hCH]
  | Gzip =>
    rw [hblob]
    rw [show memberBytes .Gzip CH = gzipHdr ++
      (payloadBytes CH ++
        gzipTrailerBytes (adlerFold 1 CH.flatten) CH.flatten.length) from by
        simp [memberBytes, hdrBytes, trailerBytes, List.append_assoc]]
    rw [decompress_gzip_blob CH hv, hCH]

/-- C2: a successful `write(buf)` on either streaming adapter reports
accepting exactly `buf.len()` bytes, for any chunk length including 0,
never a partial-acceptance count. -/
theorem C2_write_full_acceptance (e : Encoder) (d : Decoder)
    (buf : List Nat) :
    (e.write buf).2 = buf.length ∧
    (match d.write buf with
     | .ok r => r.2 = buf.length
     | .error _ => True) := by
  constructor
  · cases buf with
    | nil => rfl
    | cons a l =>
      simp only [Encoder.write]
      rw [if_neg (by simp)]
  · simp only [Decoder.write]
    cases houter : Decoder.outerLoop d.codec (2 * buf.length + 2)
        { d.zst with inBuf := buf, pos := 0, avail_in := buf.length } [] with
    | error err => trivial
    | ok r =>
      obtain ⟨z, produced⟩ := r
      dsimp only
      split
      · rename_i r2 heq
        split at heq <;> split at heq
        · exact absurd heq (by simp)
        · simp only [Except.ok.injEq] at heq
          rw [← heq]
        · exact absurd heq (by simp)
        · simp only [Except.ok.injEq] at heq
          rw [← heq]
      · trivial

/-- C9: an Encoder `write` with an empty buffer returns `Ok(0)` and is a
complete no-op: no engine cycle, no sink write, no state change. -/
theorem C9_encoder_write_empty (e : Encoder) : e.write [] = (e, 0) := rfl

/-- C10: every successful `Decoder::write` leaves the staging buffer
drained (both cursors 0, buffer empty), so `Decoder::flush` moves no new
bytes and only forwards the flush to the inner writer. -/
theorem C10_decoder_staging_drained (d : Decoder) (buf : List Nat) :
    match d.write buf with
    | .ok r =>
        r.1.dsts = 0 ∧ r.1.dste = 0 ∧ r.1.out_buf = [] ∧
        (r.1.flush).inner.data = r.1.inner.data ∧
        (r.1.flush).inner.flushes = r.1.inner.flushes + 1
    | .error _ => True := by
  simp only [Decoder.write]
  cases houter : Decoder.outerLoop d.codec (2 * buf.length + 2)
      { d.zst with inBuf := buf, pos := 0, avail_in := buf.length } [] with
  | error err => trivial
  | ok r =>
    obtain ⟨z, produced⟩ := r
    dsimp only
    split
    · rename_i r2 heq
      split at heq <;> split at heq
      · exact absurd heq (by simp)
      · simp only [Except.ok.injEq] at heq
        rw [← heq]
        refine ⟨rfl, rfl, rfl, ?_, ?_⟩ <;>
          simp [Decoder.flush, Decoder.write_from_out_buf,
            Sink.write_all, Sink.flush]
      · exact absurd heq (by simp)
      · simp only [Except.ok.injEq] at heq
        rw [← heq]
        refine ⟨rfl, rfl, rfl, ?_, ?_⟩ <;>
          simp [Decoder.flush, Decoder.write_from_out_buf,
            Sink.write_all, Sink.flush]
    · trivial

/-- C3: corrupting any byte of the 4-byte trailer of an additive-checksum
(Zlib) compressed blob makes `Decoder::write` fail with the
checksum-mismatch error — never silent success. -/
theorem C3_zlib_trailer_corruption (S : List Nat) (i v : Nat)
    (hi : i < 4) (hvb : v < 256)
    (hne : v ≠ (compressBytes .Zlib S).getD
      ((compressBytes .Zlib S).length - 4 + i) 0) :
    decompressBytes .Zlib
      ((compressBytes .Zlib S).set
        ((compressBytes .Zlib S).length - 4 + i) v) =
      .error .IncorrectChecksum := by
  obtain ⟨CH, hCH, hvalid, hblob⟩ := compressBytes_spec .Zlib S
  have hv : ∀ ch ∈ CH, ch ≠ [] := fun ch h => (hvalid ch h).1
  have hadlt : adlerFold 1 CH.flatten < 4294967296 :=
    adlerFold_lt 1 _ (by norm_num)
  have hgrp : memberBytes .Zlib CH =
      (zlibHdr ++ payloadBytes CH) ++ be32Bytes (adlerFold 1 CH.flatten) := by
    simp [memberBytes, hdrBytes, trailerBytes]
  have htlen : (be32Bytes (adlerFold 1 CH.flatten)).length = 4 := by
    simp [be32Bytes]
  have hpos : (compressBytes .Zlib S).length - 4 =
      (zlibHdr ++ payloadBytes CH).length := by
    rw [hblob, hgrp]
    simp only [List.length_append, htlen]
    omega
  have hgetD : (compressBytes .Zlib S).getD
      ((compressBytes .Zlib S).length - 4 + i) 0 =
      (be32Bytes (adlerFold 1 CH.flatten)).getD i 0 := by
    rw [hpos]
    rw [show compressBytes .Zlib S =
      (zlibHdr ++ payloadBytes CH) ++
        be32Bytes (adlerFold 1 CH.flatten) from by rw [hblob, hgrp]]
    rw [List.getD_append_right _ _ _ _ (by omega)]
    rw [show (zlibHdr ++ payloadBytes CH).length + i -
      (zlibHdr ++ payloadBytes CH).length = i from by omega]
  have hset : (compressBytes .Zlib S).set
      ((compressBytes .Zlib S).length - 4 + i) v =
      zlibHdr ++ (payloadBytes CH ++
        (be32Bytes (adlerFold 1 CH.flatten)).set i v) := by
    rw [hpos]
    rw [show compressBytes .Zlib S =
      (zlibHdr ++ payloadBytes CH) ++
        be32Bytes (adlerFold 1 CH.flatten) from by rw [hblob, hgrp]]
    rw [List.set_append_right _ _ (by omega)]
    rw [show (zlibHdr ++ payloadBytes CH).length + i -
      (zlibHdr ++ payloadBytes CH).length = i from by omega]
    rw [List.append_assoc]
  rw [hset]
  rw [decompress_zlib_blob CH _ hv (by simp [htlen])]
  rw [if_neg ?_]
  intro hcontra
  have hbe : be32 (be32Bytes (adlerFold 1 CH.flatten)) =
      adlerFold 1 CH.flatten := be32_be32Bytes _ hadlt
  have hsetne : be32 ((be32Bytes (adlerFold 1 CH.flatten)).set i v) ≠
      be32 (be32Bytes (adlerFold 1 CH.flatten)) :=
    be32_set_ne _ htlen (be32Bytes_lt _) i hi v hvb (by rw [← hgetD]; exact hne)
  rw [hbe] at hsetne
  exact hsetne hcontra.symm

/-- C7: the totals accessors always report the engine counter plus the
carried-over totals of prior flush-completed streams: `write` grows the
reported total-consumed by exactly the chunk length, while `flush` folds
the finished stream's counters into the carry so total-consumed is
preserved and total-produced grows by exactly the terminating trailer
bytes. -/
theorem C7_totals_invariant (e : Encoder) (buf : List Nat)
    (hdsts : e.dsts = 0) (hbuf : e.dste ≤ e.out_buf.length)
    (hz : e.stream.zstate_end = false) :
    ((e.write buf).1).total_in_acc = e.total_in_acc + buf.length ∧
    (e.flush).total_in_acc = e.total_in_acc ∧
    (e.flush).total_out_acc = e.total_out_acc +
      (flushOut e.stream).length ∧
    (e.flush).stream.total_in = 0 ∧ (e.flush).stream.total_out = 0 := by
  refine ⟨?_, ?_, ?_, ?_, ?_⟩
  · by_cases hb : buf = []
    · subst hb
      show (e.write []).1.total_in_acc = e.total_in_acc + 0
      rfl
    · obtain ⟨CH, hflat, hvalid, w3, w4, w5, w6, w7, w8, w9, w10, w11,
        w12, w13, w14, w15, w16, w17, w18⟩ := write_spec e buf hb hdsts hbuf
      unfold Encoder.total_in_acc
      rw [w17, w9]
      omega
  · rw [flush_spec e hdsts hbuf hz]
    unfold Encoder.total_in_acc
    dsimp only
    omega
  · rw [flush_spec e hdsts hbuf hz]
    unfold Encoder.total_out_acc
    dsimp only
    omega
  · rw [flush_spec e hdsts hbuf hz]
  · rw [flush_spec e hdsts hbuf hz]

/-- C4 (amended: the source gates both the fold and the comparison on
strictly MORE than 4 input bytes, `buf.len() > 4`, not "at least 4"): in an
additive-checksum `Decoder::write` call whose engine pass succeeds, when
the chunk held more than 4 bytes the produced bytes are folded into the
running accumulator and, exactly when the engine then sits at a member
boundary with the accumulator differing from the big-endian value of the
chunk's last 4 bytes, the call fails hard with the checksum-mismatch
error; a call with 4 or fewer bytes skips the fold and the comparison
entirely and leaves the accumulator untouched. -/
theorem C4_zlib_adler_threshold (d : Decoder) (buf : List Nat)
    (z : InflateState) (produced : List Nat)
    (hcodec : d.codec = .Zlib)
    (houter : Decoder.outerLoop .Zlib (2 * buf.length + 2)
      { d.zst with inBuf := buf, pos := 0, avail_in := buf.length } [] =
      .ok (z, produced)) :
    (4 < buf.length →
      (d.write buf = .error .IncorrectChecksum ↔
        z.block_state = .NEW_HDR ∧
        adlerFold d.adler32 produced ≠ be32 (buf.drop (buf.length - 4))) ∧
      (∀ d' n, d.write buf = .ok (d', n) →
        d'.adler32 = adlerFold d.adler32 produced)) ∧
    (buf.length ≤ 4 →
      ∃ d', d.write buf = .ok (d', buf.length) ∧
        d'.adler32 = d.adler32) := by
  have hw : d.write buf =
      (if Codec.Zlib = Codec.Zlib ∧ buf.length > 4 ∧
          z.block_state = .NEW_HDR ∧
          (if Codec.Zlib = Codec.Zlib ∧ buf.length > 4
           then adlerFold d.adler32 produced else d.adler32) ≠
            be32 (buf.drop (buf.length - 4)) then
        .error .IncorrectChecksum
      else
        .ok ((({ d with
                  zst := z,
                  adler32 := (if Codec.Zlib = Codec.Zlib ∧ buf.length > 4
                    then adlerFold d.adler32 produced else d.adler32),
                  out_buf := produced,
                  dste := produced.length,
                  dsts := 0 } : Decoder).write_from_out_buf).1,
             buf.length)) := by
    simp only [Decoder.write, hcodec]
    rw [houter]
  constructor
  · intro hlen
    have hA : (if Codec.Zlib = Codec.Zlib ∧ buf.length > 4
        then adlerFold d.adler32 produced else d.adler32) =
        adlerFold d.adler32 produced := if_pos ⟨rfl, hlen⟩
    rw [hA] at hw
    constructor
    · constructor
      · intro herr
        by_cases hcond : z.block_state = .NEW_HDR ∧
            adlerFold d.adler32 produced ≠ be32 (buf.drop (buf.length - 4))
        · exact hcond
        · rw [if_neg (by
            rintro ⟨-, -, hbs, hne⟩
            exact hcond ⟨hbs, hne⟩)] at hw
          rw [hw] at herr
          exact absurd herr (by simp)
      · rintro ⟨hbs, hne⟩
        rw [if_pos ⟨rfl, hlen, hbs, hne⟩] at hw
        exact hw
    · intro d' n hok
      by_cases hcond : Codec.Zlib = Codec.Zlib ∧ 4 < buf.length ∧
          z.block_state = .NEW_HDR ∧
          adlerFold d.adler32 produced ≠ be32 (buf.drop (buf.length - 4))
      · rw [if_pos hcond] at hw
        rw [hw] at hok
        exact absurd hok (by simp)
      · rw [if_neg hcond] at hw
        rw [hw] at hok
        simp only [Except.ok.injEq, Prod.mk.injEq] at hok
        rw [← hok.1]
        rfl
  · intro hlen
    have hA : (if Codec.Zlib = Codec.Zlib ∧ buf.length > 4
        then adlerFold d.adler32 produced else d.adler32) =
        d.adler32 := if_neg (by rintro ⟨-, h4⟩; omega)
    rw [hA] at hw
    rw [if_neg (by rintro ⟨-, h4, -⟩; omega)] at hw
    exact ⟨_, hw, rfl⟩

/-- C5 (amended: the cursor is re-pointed at byte offset 2 of the current
chunk, `next_in = buf[2..]`, not at the first byte past the current
member's 2 header bytes — the two coincide only when the member starts at
chunk offset 0): whenever the additive-checksum `Decoder::write` sees the
engine at `NEW_HEADER`, it validates the fixed 2-byte container header at
the current cursor, forces the engine checksum mode off (`crc_flag = 0`;
the adapter computes the additive checksum itself), and sets the input
cursor to absolute chunk offset 2 with the window shrunk by the 2 header
bytes. -/
theorem C5_zlib_header_cursor (z z' : InflateState)
    (h : Decoder.newHdrBranch .Zlib z = .ok z') :
    z'.pos = 2 ∧ z'.crc_flag = 0 ∧ z'.avail_in = z.avail_in - 2 ∧
    z'.core.phase = .blkHdr [] ∧ z'.inBuf = z.inBuf ∧
    z'.block_state = z.block_state := by
  simp only [Decoder.newHdrBranch, read_zlib_header] at h
  split at h
  · exact absurd h (by simp)
  · rename_i z1 heq
    simp only [Except.ok.injEq] at h
    split at heq
    · split at heq
      · exact absurd heq (by simp)
      · split at heq
        · simp only [Except.ok.injEq] at heq
          rw [← h, ← heq]
          exact ⟨rfl, rfl, rfl, rfl, rfl, rfl⟩
        · exact absurd heq (by simp)
    · exact absurd heq (by simp)

/-- C8 (amended: chunking-invariance holds for the raw-Deflate framing;
the container formats are chunk-sensitive, since the adapter's
member-header and checksum handling addresses positions of the current
chunk): for every byte sequence and every partition of its raw-Deflate
compressed blob into consecutive chunks, feeding the chunks across many
`write` calls produces the same sink bytes as a single-call
decompression — the original sequence. -/
theorem C8_deflate_chunking (S : List Nat) (parts : List (List Nat))
    (hflat : parts.flatten = compressBytes .Deflate S) :
    decompressChunks .Deflate parts =
      decompressBytes .Deflate (compressBytes .Deflate S) ∧
    decompressChunks .Deflate parts = .ok S := by
  have h1 := decompressChunks_deflate S parts hflat
  have h2 := decompressChunks_deflate S [compressBytes .Deflate S]
    (by simp)
  rw [decompressChunks_single] at h2
  exact ⟨by rw [h1, h2], h1⟩

/-- C6: `Encoder::flush` cycles the engine to its end state, staging the
final empty block and per-format trailer, hands all staged bytes to the
sink and flushes it, folds the finished stream's totals into the persisted
counters, structurally resets the engine and re-arms flush mode, the
end-of-stream flag and the format tag; consequently writing "foo",
flushing, writing "bar" and flushing yields two independently-trailered
members that decompress to "foobar", with accumulated total-consumed 6. -/
theorem C6_flush_stream_boundary :
    (∀ e : Encoder, e.dsts = 0 → e.dste ≤ e.out_buf.length →
      e.stream.zstate_end = false →
      e.flush =
        { inner := (e.inner.write_all
            (e.out_buf.take e.dste ++ flushOut e.stream)).flush,
          stream :=
            { total_in := 0, total_out := 0, flush := .NoFlush,
              end_of_stream := false, gzip_flag := e.codec,
              hdr_written := false, adler := 1, zstate_end := false },
          out_buf := [], dsts := 0, dste := 0,
          total_in := e.total_in + e.stream.total_in,
          total_out := e.total_out + e.stream.total_out +
            (flushOut e.stream).length,
          codec := e.codec }) ∧
    decompressBytes .Gzip
      (((((Encoder.new emptySink .Three .Gzip).write
          [102, 111, 111]).1.flush).write [98, 97, 114]).1.flush).inner.data =
      .ok [102, 111, 111, 98, 97, 114] ∧
    (((((Encoder.new emptySink .Three .Gzip).write
        [102, 111, 111]).1.flush).write [98, 97, 114]).1.flush).total_in_acc =
      6 ∧
    (((((Encoder.new emptySink .Three .Gzip).write
        [102, 111, 111]).1.flush).write [98, 97, 114]).1.flush).inner.flushes =
      2 := by
  refine ⟨?_, by decide, by decide, by decide⟩
  intro e h1 h2 h3
  exact flush_spec e h1 h2 h3

/-- Witness for C3 at a concrete input: corrupting the last trailer byte
of the empty-stream Zlib blob is rejected with the checksum error. -/
theorem C3_zlib_trailer_corruption_witness :
    (0 : Nat) < 4 ∧ (1 : Nat) < 256 ∧
    (1 : Nat) ≠ (compressBytes .Zlib []).getD
      ((compressBytes .Zlib []).length - 4 + 0) 0 ∧
    decompressBytes .Zlib ((compressBytes .Zlib []).set
      ((compressBytes .Zlib []).length - 4 + 0) 1) =
      .error .IncorrectChecksum :=
  ⟨by decide, by decide, by decide,
    C3_zlib_trailer_corruption [] 0 1 (by decide) (by decide) (by decide)⟩

/-- Witness for C4 at a concrete input: the empty chunk is below the
threshold, succeeds, and leaves the accumulator untouched. -/
theorem C4_zlib_adler_threshold_witness :
    (Decoder.new emptySink .Zlib).codec = .Zlib ∧
    Decoder.outerLoop .Zlib (2 * ([] : List Nat).length + 2)
      { (Decoder.new emptySink .Zlib).zst with
          inBuf := [], pos := 0, avail_in := ([] : List Nat).length } [] =
      .ok (⟨[], 0, 0, .NEW_HDR, 3, freshCore⟩, []) ∧
    (([] : List Nat).length ≤ 4 →
      ∃ d', (Decoder.new emptySink .Zlib).write [] =
        .ok (d', ([] : List Nat).length) ∧
        d'.adler32 = (Decoder.new emptySink .Zlib).adler32) :=
  ⟨rfl, by decide,
    (C4_zlib_adler_threshold (Decoder.new emptySink .Zlib) []
      ⟨[], 0, 0, .NEW_HDR, 3, freshCore⟩ [] rfl (by decide)).2⟩

/-- Counterexample to C4 as stated: a 4-byte additive-checksum chunk (the
"at least 4" boundary) produces a decoded byte yet leaves the running
accumulator at its old value 1, which differs from the fold of the
produced bytes — the source folds only for strictly more than 4 bytes. -/
theorem C4_counterexample :
    (Decoder.new emptySink .Zlib).write [120, 156] =
      .ok (⟨⟨[], 0⟩, ⟨[120, 156], 2, 0, .CODED, 0, ⟨.blkHdr [], 1, 0⟩⟩,
        [], 0, 0, .Zlib, 1⟩, 2) ∧
    (⟨⟨[], 0⟩, ⟨[120, 156], 2, 0, .CODED, 0, ⟨.blkHdr [], 1, 0⟩⟩,
      [], 0, 0, .Zlib, 1⟩ : Decoder).write [0, 1, 0, 97] =
      .ok (⟨⟨[97], 0⟩, ⟨[0, 1, 0, 97], 4, 0, .CODED, 0,
        ⟨.blkHdr [], 6422626, 1⟩⟩, [], 0, 0, .Zlib, 1⟩, 4) ∧
    ([0, 1, 0, 97] : List Nat).length = 4 ∧
    adlerFold 1 [97] ≠ 1 := by decide

/-- Witness for C5 at a concrete input: a member starting at chunk offset
0, where the absolute cursor 2 coincides with skipping the header. -/
theorem C5_zlib_header_cursor_witness :
    Decoder.newHdrBranch .Zlib
      ⟨[120, 156, 1, 0, 0], 0, 5, .NEW_HDR, 3, freshCore⟩ =
      .ok ⟨[120, 156, 1, 0, 0], 2, 3, .NEW_HDR, 0, ⟨.blkHdr [], 1, 0⟩⟩ ∧
    (⟨[120, 156, 1, 0, 0], 2, 3, .NEW_HDR, 0,
      (⟨.blkHdr [], 1, 0⟩ : EngCore)⟩ : InflateState).pos = 2 ∧
    (⟨[120, 156, 1, 0, 0], 2, 3, .NEW_HDR, 0,
      (⟨.blkHdr [], 1, 0⟩ : EngCore)⟩ : InflateState).crc_flag = 0 :=
  ⟨by decide,
   (C5_zlib_header_cursor
      ⟨[120, 156, 1, 0, 0], 0, 5, .NEW_HDR, 3, freshCore⟩
      ⟨[120, 156, 1, 0, 0], 2, 3, .NEW_HDR, 0, ⟨.blkHdr [], 1, 0⟩⟩
      (by decide)).1,
   (C5_zlib_header_cursor
      ⟨[120, 156, 1, 0, 0], 0, 5, .NEW_HDR, 3, freshCore⟩
      ⟨[120, 156, 1, 0, 0], 2, 3, .NEW_HDR, 0, ⟨.blkHdr [], 1, 0⟩⟩
      (by decide)).2.1⟩

/-- Counterexample to C5 as stated: at a member boundary that sits at
chunk offset 13 (a second member concatenated after a first), the adapter
validates the header there but re-points the cursor at absolute offset 2,
not at the first byte past those header bytes (15); consequently a
two-member additive-checksum stream fails to decode in one call even
though the single member decodes fine. -/
theorem C5_counterexample :
    Decoder.newHdrBranch .Zlib
      ⟨compressBytes .Zlib [97] ++ compressBytes .Zlib [97], 13, 13,
        .NEW_HDR, 0, freshCore⟩ =
      .ok ⟨compressBytes .Zlib [97] ++ compressBytes .Zlib [97], 2, 11,
        .NEW_HDR, 0, ⟨.blkHdr [], 1, 0⟩⟩ ∧
    (2 : Nat) ≠ 13 + 2 ∧
    decompressBytes .Zlib
      (compressBytes .Zlib [97] ++ compressBytes .Zlib [97]) =
      .error .IncorrectChecksum ∧
    decompressBytes .Zlib (compressBytes .Zlib [97]) = .ok [97] := by
  decide

/-- Witness for C6's general component at the fresh Gzip encoder. -/
theorem C6_flush_stream_boundary_witness :
    (Encoder.new emptySink .Three .Gzip).dsts = 0 ∧
    (Encoder.new emptySink .Three .Gzip).dste ≤
      (Encoder.new emptySink .Three .Gzip).out_buf.length ∧
    (Encoder.new emptySink .Three .Gzip).stream.zstate_end = false ∧
    (Encoder.new emptySink .Three .Gzip).flush =
      { inner := ((Encoder.new emptySink .Three .Gzip).inner.write_all
          ((Encoder.new emptySink .Three .Gzip).out_buf.take
            (Encoder.new emptySink .Three .Gzip).dste ++
           flushOut (Encoder.new emptySink .Three .Gzip).stream)).flush,
        stream :=
          { total_in := 0, total_out := 0, flush := .NoFlush,
            end_of_stream := false,
            gzip_flag := (Encoder.new emptySink .Three .Gzip).codec,
            hdr_written := false, adler := 1, zstate_end := false },
        out_buf := [], dsts := 0, dste := 0,
        total_in := (Encoder.new emptySink .Three .Gzip).total_in +
          (Encoder.new emptySink .Three .Gzip).stream.total_in,
        total_out := (Encoder.new emptySink .Three .Gzip).total_out +
          (Encoder.new emptySink .Three .Gzip).stream.total_out +
          (flushOut (Encoder.new emptySink .Three .Gzip).stream).length,
        codec := (Encoder.new emptySink .Three .Gzip).codec } :=
  ⟨rfl, by decide, rfl,
    C6_flush_stream_boundary.1 (Encoder.new emptySink .Three .Gzip) rfl
      (by decide) rfl⟩

/-- Witness for C7 at a concrete encoder and chunk. -/
theorem C7_totals_invariant_witness :
    (Encoder.new emptySink .Three .Gzip).dsts = 0 ∧
    (Encoder.new emptySink .Three .Gzip).dste ≤
      (Encoder.new emptySink .Three .Gzip).out_buf.length ∧
    (Encoder.new emptySink .Three .Gzip).stream.zstate_end = false ∧
    (((Encoder.new emptySink .Three .Gzip).write [97]).1).total_in_acc =
      (Encoder.new emptySink .Three .Gzip).total_in_acc +
        ([97] : List Nat).length :=
  ⟨rfl, by decide, rfl,
    (C7_totals_invariant (Encoder.new emptySink .Three .Gzip) [97] rfl
      (by decide) rfl).1⟩

/-- Witness for C8 at a concrete one-chunk partition. -/
theorem C8_deflate_chunking_witness :
    ([compressBytes .Deflate [97]] : List (List Nat)).flatten =
      compressBytes .Deflate [97] ∧
    decompressChunks .Deflate [compressBytes .Deflate [97]] = .ok [97] :=
  ⟨by decide,
    (C8_deflate_chunking [97] [compressBytes .Deflate [97]] (by decide)).2⟩

/-- Counterexample to C8 as stated: splitting a self-checksummed (Gzip)
blob inside its 10-byte member header makes the chunked decode fail with a
malformed-header error, while the single-call decode of the very same
bytes succeeds. -/
theorem C8_counterexample :
    (compressBytes .Gzip [97]).take 5 ++ (compressBytes .Gzip [97]).drop 5 =
      compressBytes .Gzip [97] ∧
    decompressBytes .Gzip (compressBytes .Gzip [97]) = .ok [97] ∧
    decompressChunks .Gzip
      [(compressBytes .Gzip [97]).take 5,
       (compressBytes .Gzip [97]).drop 5] =
      .error .MalformedHeader := by
  decide
